import Mathlib

/-!
The 7DTD mod downloader: resumable transfer and archive extraction.

A shallow embedding of `main.go`: the manifest loop `Download`, the retry
loop `downloadMod`, one transfer attempt `attemptDownload` and the archive
extractor `Unzip`, over an explicit file-system state.

Conventions of the embedding.

* Path strings are read as on the platform the program runs on (`initFont`
  reads `C:\Windows\Fonts` at start-up): `/` and the backslash separate
  components, a letter followed by a colon designates a volume, and `.` and
  `..` are resolved on the text of the path before the file system is
  consulted.
* A resolved path is the list of its components from the root of the current
  volume; that root is the empty list and is always a directory. A path on
  another volume starts with the designator of that volume (a colon cannot
  occur in a file name, so this clashes with no path of the current volume);
  such a volume is present when the file system has a directory there.
  Device and network prefixes are not distinguished from a path that starts
  at the root of the current volume.
* The file systems of interest are those in which every node lies in a
  directory and the working directory is a directory; on the others the
  operations are defined all the same.
* File contents are byte sequences; a byte is kept as a natural number.
* The operating system, the HTTP server, the zip reader and the GBK decoder
  are the environment: their answers are data (`Env`, `Reply`, `ZipEntry`).
* Go `int` fields are `Int`; lengths and offsets are `Nat`.
-/

namespace ModDownloader

/-! ## Data model -/

/-- Mod is one manifest item (`type Mod struct`); the Go field `Type` is spelled
`Typ` because `Type` is reserved. -/
structure Mod where
  FileName : String
  Url : String
  Size : Int
  Typ : Int
  deriving DecidableEq, Repr

abbrev Bytes := List Nat

abbrev Path := List String

/-- Node of the file system: a regular file with its content and whether its
owner may open it for writing, or a directory. -/
inductive Node where
  | file (data : Bytes) (writable : Bool)
  | dir
  deriving DecidableEq, Repr

/-- FS maps every path to the node stored there, if any. -/
abbrev FS := Path → Option Node

/-- Errors returned by the modelled functions, one constructor per `return err`
site of the source. -/
inductive Err where
  | openArchive
  | decodeName
  | mkdir
  | openFile
  | openEntry
  | copy
  | create
  | openTmp
  | newRequest
  | send
  | status (code : Nat)
  deriving DecidableEq, Repr

/-- ZipEntry is what `archive/zip` exposes for one `*zip.File`: the stored name,
`FileInfo().IsDir()`, `Mode()` (permission bits), whether `Open()` succeeds,
the bytes the entry reader delivers and whether it delivers them without a
read error. -/
structure ZipEntry where
  Name : String
  isDir : Bool
  Mode : Nat
  opens : Bool
  data : Bytes
  intact : Bool
  deriving DecidableEq, Repr

/-! ## Paths (`path/filepath` and the resolution of a path by the system) -/

/-- Separator test of `filepath` on the target platform: `/` and the backslash
(code point 92). -/
def isSeparator (c : Char) : Bool :=
  c = '/' || c.toNat = 92

/-- Components of a character sequence, cut at every separator. -/
def splitChars : List Char → List (List Char)
  | [] => [[]]
  | c :: cs =>
    if isSeparator c then [] :: splitChars cs
    else
      match splitChars cs with
      | [] => [[c]]
      | seg :: rest => (c :: seg) :: rest

/-- Components of a character sequence, as strings. -/
def components (cs : List Char) : List String :=
  (splitChars cs).map String.mk

/-- Components of a path string. -/
def splitPath (s : String) : List String :=
  components s.data

/-- One step of the cleaning of a path: empty and `.` components are dropped,
`..` removes the component before it (and is dropped at the root), any
other component is kept. -/
def cleanStep (acc : Path) (seg : String) : Path :=
  if seg = "" ∨ seg = "." then acc
  else if seg = ".." then acc.dropLast
  else acc ++ [seg]

/-- Clean is the cleaning of the components of a path that starts at a root. -/
def Clean (segs : List String) : Path :=
  segs.foldl cleanStep []

/-- Where the resolution of a path string starts: the working directory, the
root of the current volume, or the root of another volume. -/
inductive Anchor where
  | cwd
  | root
  | volume (v : String)
  deriving DecidableEq, Repr

def startsWithSeparator : List Char → Bool
  | c :: _ => isSeparator c
  | [] => false

/-- Anchor of a string without volume designator: the root when it starts with
a separator, the working directory otherwise. -/
def plainAnchor (s : List Char) : Anchor × List Char :=
  (if startsWithSeparator s then Anchor.root else Anchor.cwd, s)

/-- Anchor of a path string and the characters that follow its volume
designator; `drive` is the designator of the current volume, upper case.
On the current volume `X:name` is relative to the working directory and
`X:` followed by a separator starts at the root; another volume is entered
at its root. -/
def anchorOf (drive : String) : List Char → Anchor × List Char
  | c :: d :: rest =>
    if d = ':' ∧ c.isAlpha = true then
      if String.mk [c.toUpper, ':'] = drive then
        (if startsWithSeparator rest then Anchor.root else Anchor.cwd, rest)
      else (Anchor.volume (String.mk [c.toUpper, ':']), rest)
    else plainAnchor (c :: d :: rest)
  | s => plainAnchor s

/-- Components in front of the cleaned part, which no `..` removes. -/
def anchorFixed : Anchor → Path
  | Anchor.volume v => [v]
  | _ => []

/-- Components the cleaning starts from. -/
def anchorBase (cwd : Path) : Anchor → Path
  | Anchor.cwd => cwd
  | _ => []

/-- The path a string of characters names, given the working directory and
the current volume. -/
def resolveChars (cwd : Path) (drive : String) (s : List Char) : Path :=
  anchorFixed (anchorOf drive s).1
    ++ Clean (anchorBase cwd (anchorOf drive s).1 ++ components (anchorOf drive s).2)

/-- The text `filepath.Join(dest, name)` cleans: empty elements are skipped;
after a destination that ends in a separator the leading separators of the
name are dropped, after one that ends in a colon the name follows
directly, and otherwise a separator is put between the two. -/
def joinChars (dest name : List Char) : List Char :=
  if dest = [] then name
  else if name = [] then dest
  else
    match dest.getLast? with
    | none => name
    | some c =>
      if isSeparator c then dest ++ name.dropWhile isSeparator
      else if c = ':' then dest ++ name
      else dest ++ Char.ofNat 92 :: name

/-- Join is `filepath.Join(dest, name)`, before its cleaning, which `resolve`
performs. -/
def Join (dest name : String) : String :=
  String.mk (joinChars dest.data name.data)

/-- Dir is `filepath.Dir` of a resolved path: the path without its last
component. Where the text of the path has no component to drop (it names
the working directory, a root, or an ancestor of the working directory
reached through `..`) `filepath.Dir` names a directory that exists, and so
does `Dir` on a file system in which the working directory lies;
`os.MkdirAll` changes nothing on either. -/
def Dir (p : Path) : Path :=
  p.dropLast

/-- Depth bookkeeping for a relative name: the number of proper components
currently open, or `none` once a `..` has climbed above the start. -/
def climbStep (depth : Option Nat) (seg : String) : Option Nat :=
  match depth with
  | none => none
  | some d =>
    if seg = "" ∨ seg = "." then some d
    else if seg = ".." then (if d = 0 then none else some (d - 1))
    else some (d + 1)

/-- No `..` among the components climbs above the start. -/
def stays (segs : List String) : Bool :=
  (segs.foldl climbStep (some 0)).isSome

/-- An entry name stays inside the destination: no `..` component climbs above
the start, and with an empty destination the name is relative to the
working directory. -/
def nameInside (drive : String) (dest name : String) : Bool :=
  if dest = "" then
    decide ((anchorOf drive name.data).1 = Anchor.cwd)
      && stays (components (anchorOf drive name.data).2)
  else stays (splitPath name)

/-! ## File-system operations (`os`) -/

/-- Replace the node at one path. -/
def FS.set (fs : FS) (p : Path) (n : Option Node) : FS :=
  fun q => if q = p then n else fs q

def Node.isFile : Option Node → Bool
  | some (Node.file _ _) => true
  | _ => false

/-- The directory holding `p` can be entered: it is the root or a directory. -/
def parentIsDir (fs : FS) (p : Path) : Bool :=
  match p.dropLast with
  | [] => true
  | d => fs d == some Node.dir

/-- Some component of `p` (or `p` itself) is a regular file, so no directory can
be made at `p`. -/
def blocked (fs : FS) (p : Path) : Bool :=
  (List.inits p).any (fun q => !q.isEmpty && Node.isFile (fs q))

/-- The file system in which `p` and all its ancestors below the root are
directories. -/
def withDirs (fs : FS) (p : Path) : FS :=
  fun q => if !q.isEmpty && q.isPrefixOf p then some Node.dir else fs q

/-- MkdirAll is `os.MkdirAll(p, os.ModePerm)`: it fails, creating nothing, when
a component of `p` is a regular file and otherwise makes `p` and all its
ancestors directories. -/
def MkdirAll (fs : FS) (p : Path) : Option Err × FS :=
  if blocked fs p then (some Err.mkdir, fs)
  else (none, withDirs fs p)

/-- Owner write bit (`0200`) of a permission word. -/
def ownerWritable (perm : Nat) : Bool :=
  perm.testBit 7

/-- OpenFileTrunc is `os.OpenFile(p, O_WRONLY|O_CREATE|O_TRUNC, perm)`: an
existing writable file is emptied, a missing one is created with `perm`; it
fails on a directory, on a file its owner may not write, and when the
parent is not a directory. -/
def OpenFileTrunc (fs : FS) (p : Path) (perm : Nat) : Option FS :=
  if p.isEmpty then none
  else if !parentIsDir fs p then none
  else
    match fs p with
    | some Node.dir => none
    | some (Node.file _ w) => if w then some (fs.set p (some (Node.file [] w))) else none
    | none => some (fs.set p (some (Node.file [] (ownerWritable perm))))

/-- Bytes written through an open handle are appended to the file. -/
def appendFile (fs : FS) (p : Path) (data : Bytes) : FS :=
  match fs p with
  | some (Node.file old w) => fs.set p (some (Node.file (old ++ data) w))
  | _ => fs

/-! ## The environment -/

/-- Reply of the HTTP layer to one `client.Do(req)`: an error, or a response
with its status code, the body bytes that can be read and whether the body
is read to its end without an error. -/
inductive Reply where
  | failed
  | response (status : Nat) (body : Bytes) (complete : Bool)
  deriving DecidableEq, Repr

/-- Env is everything the program takes from outside: the working directory
and the designator of its volume, the two package-level extraction roots
(strings; `init` leaves them empty or sets them to an absolute path),
whether `http.NewRequest` accepts a URL, the answer of the server to the
n-th request sent (given its URL and start offset), `zip.OpenReader` on the
content of an archive file, and the GBK decoder behind `decodeFileName`. -/
structure Env where
  cwd : Path
  drive : String
  SD2DModPath : String
  SD2DMapPath : String
  validUrl : String → Bool
  server : Nat → String → Nat → Reply
  readZip : Bytes → Option (List ZipEntry)
  decodeFileName : String → Option String

/-- The path a string names for the system. -/
def resolve (env : Env) (s : String) : Path :=
  resolveChars env.cwd env.drive s.data

/-- The output path of an entry: `filepath.Join(dest, fileName)`, as the system
resolves it. -/
def outputPath (env : Env) (dest fileName : String) : Path :=
  resolve env (Join dest fileName)

/-! ## Archive extraction (`Unzip`) -/

/-- Body of the `for _, f := range r.File` loop of `Unzip` for one entry.
The error of `os.MkdirAll` is discarded for a directory entry and returned
for a file entry, as in the source. -/
def extractEntry (env : Env) (dest : String) (fs : FS) (f : ZipEntry) : Option Err × FS :=
  match env.decodeFileName f.Name with
  | none => (some Err.decodeName, fs)
  | some fileName =>
    if f.isDir then (none, (MkdirAll fs (outputPath env dest fileName)).2)
    else
      match MkdirAll fs (Dir (outputPath env dest fileName)) with
      | (some e, fs1) => (some e, fs1)
      | (none, fs1) =>
        match OpenFileTrunc fs1 (outputPath env dest fileName) f.Mode with
        | none => (some Err.openFile, fs1)
        | some fs2 =>
          if !f.opens then (some Err.openEntry, fs2)
          else if f.intact then (none, appendFile fs2 (outputPath env dest fileName) f.data)
          else (some Err.copy, appendFile fs2 (outputPath env dest fileName) f.data)

/-- The loop of `Unzip` over the entries of an opened archive: it stops at the
first entry whose body returns an error. -/
def unzipEntries (env : Env) (dest : String) : List ZipEntry → FS → Option Err × FS
  | [], fs => (none, fs)
  | f :: rest, fs =>
    match extractEntry env dest fs f with
    | (some e, fs1) => (some e, fs1)
    | (none, fs1) => unzipEntries env dest rest fs1

/-! ## One transfer attempt (`attemptDownload`) -/

/-- Observable calls of the transfer engine, in program order: a request sent
with its `Range` header, a successful `os.Remove`, a successful
`os.Rename`, a call of `Unzip`. -/
inductive Event where
  | get (url : String) (range : String)
  | removed (p : Path)
  | renamed (src dst : Path)
  | unzip (src dest : Path)
  deriving DecidableEq, Repr

/-- World is the mutable state a run threads through: the file system, the
number of requests sent so far and the log of observable calls. -/
structure World where
  fs : FS
  requests : Nat
  log : List Event

/-- Value of the header set by `req.Header.Set("Range", fmt.Sprintf("bytes=%d-", startPos))`. -/
def rangeHeader (startPos : Nat) : String :=
  "bytes=" ++ toString startPos ++ "-"

/-- The path the name `mod.FileName + ".tmp"` of the temporary file resolves
to. -/
def tmpFileName (env : Env) (mod : Mod) : Path :=
  resolve env (mod.FileName ++ ".tmp")

/-- The path the final name `mod.FileName` resolves to. -/
def finalFileName (env : Env) (mod : Mod) : Path :=
  resolve env mod.FileName

/-- Answer of `os.Stat`: an error for which `os.IsNotExist` holds, any other
error, or the node found. -/
inductive StatResult where
  | notExist
  | failed
  | found (n : Node)
  deriving DecidableEq, Repr

/-- Stat is `os.Stat`: the node at `p` is reached through its parent directory;
a missing node or a missing parent is the `os.IsNotExist` answer, a parent
that is a regular file is another error. -/
def Stat (fs : FS) (p : Path) : StatResult :=
  if parentIsDir fs p then
    match fs p with
    | none => StatResult.notExist
    | some n => StatResult.found n
  else
    match fs p.dropLast with
    | none => StatResult.notExist
    | some _ => StatResult.failed

/-- Remove is `os.Remove` on a regular file; its error is never inspected by the
source, so a call that removes nothing leaves the world unchanged. -/
def Remove (w : World) (p : Path) : World :=
  match w.fs p with
  | some (Node.file _ _) => { w with fs := w.fs.set p none, log := w.log ++ [Event.removed p] }
  | _ => w

/-- A regular file can be renamed onto `dst`: `dst` is not the root, lies in a
directory, and is missing or a file that may be written. A directory is
never replaced by a file; a read-only file is not replaced on the platform
the program runs on. -/
def canReplace (fs : FS) (dst : Path) : Bool :=
  !dst.isEmpty && parentIsDir fs dst &&
    (match fs dst with
     | none => true
     | some (Node.file _ wr) => wr
     | some Node.dir => false)

/-- Rename is `os.Rename` of a regular file onto a path that can take it (an
existing writable file there is replaced); any other call (a missing
source, a directory or a read-only file at the target; renaming a
directory is not modelled) fails and, its error being ignored by the
source, leaves the world unchanged. -/
def Rename (w : World) (src dst : Path) : World :=
  match w.fs src with
  | some (Node.file d wr) =>
    if canReplace w.fs dst then
      { w with fs := (w.fs.set dst (some (Node.file d wr))).set src none,
               log := w.log ++ [Event.renamed src dst] }
    else w
  | _ => w

/-- Unzip is `Unzip(src, dest)`: `zip.OpenReader(src)`, which needs a regular
file at `src`, then the loop over the entries. -/
def Unzip (env : Env) (src : Path) (dest : String) (fs : FS) : Option Err × FS :=
  if src.isEmpty then (some Err.openArchive, fs)
  else
    match fs src with
    | some (Node.file data _) =>
      match env.readZip data with
      | none => (some Err.openArchive, fs)
      | some entries => unzipEntries env dest entries fs
    | _ => (some Err.openArchive, fs)

/-- A call `Unzip(src, dest)` whose result is discarded, as in the deferred
function; the log keeps the paths the two arguments resolve to. -/
def callUnzip (env : Env) (src : Path) (dest : String) (w : World) : World :=
  { w with fs := (Unzip env src dest w.fs).2,
           log := w.log ++ [Event.unzip src (resolve env dest)] }

/-- Extraction part of the deferred function: `Type == 0` extracts into the mod
root, `Type == 2` into the map root, any other type extracts nothing. -/
def extractFor (env : Env) (mod : Mod) (w : World) : World :=
  if mod.Typ = 0 then callUnzip env (finalFileName env mod) env.SD2DModPath w
  else if mod.Typ = 2 then callUnzip env (finalFileName env mod) env.SD2DMapPath w
  else w

/-- The deferred function of `attemptDownload` (lines 225-237). `err` is the value
of the function-level variable `err` when the function returns: the
closure reads that variable, not the value being returned. -/
def deferred (env : Env) (mod : Mod) (err : Option Err) (w : World) : World :=
  match err with
  | some _ => Remove w (tmpFileName env mod)
  | none => extractFor env mod (Rename w (tmpFileName env mod) (finalFileName env mod))

/-- Lines 206-224: create the temporary file (`os.Create`, mode `0666`) when
`os.Stat` reports it missing, otherwise open it with `O_APPEND|O_WRONLY`
and take its size as the start offset. A directory, a file its owner may
not write, or a path `os.Stat` could not reach cannot be opened. Both
failures return before the deferred function is registered. `file.Stat()`
on the handle just opened is taken to succeed. -/
def openTmp (fs : FS) (p : Path) : Except Err (FS × Nat) :=
  match Stat fs p with
  | StatResult.notExist =>
    match OpenFileTrunc fs p 0o666 with
    | none => Except.error Err.create
    | some fs1 => Except.ok (fs1, 0)
  | StatResult.failed => Except.error Err.openTmp
  | StatResult.found (Node.file data wr) =>
    if wr then Except.ok (fs, data.length) else Except.error Err.openTmp
  | StatResult.found Node.dir => Except.error Err.openTmp

/-- The function `attemptDownload`. The first argument bounds the depth of the
recursion on status 416, which the source does not bound; `none` means the
bound was reached. The result is the returned error (`none` for `nil`)
and the world after the deferred function has run. The goroutine that
polls the file size for the progress bar writes nothing and is left out.

The variable `err` read by the deferred function is assigned by
`http.NewRequest`, `client.Do` and `io.Copy`; `return fmt.Errorf(...)` and
`return attemptDownload(...)` return a value without assigning it, so on
those two paths the deferred function sees `err == nil`. -/
def attemptDownload (env : Env) : Nat → Mod → World → Option (Option Err × World)
  | 0, _, _ => none
  | fuel + 1, mod, w =>
    match openTmp w.fs (tmpFileName env mod) with
    | Except.error e => some (some e, w)
    | Except.ok (fs1, startPos) =>
      if !env.validUrl mod.Url then
        some (some Err.newRequest, deferred env mod (some Err.newRequest) { w with fs := fs1 })
      else
        let w2 : World :=
          { fs := fs1, requests := w.requests + 1,
            log := w.log ++ [Event.get mod.Url (rangeHeader startPos)] }
        match env.server w.requests mod.Url startPos with
        | Reply.failed => some (some Err.send, deferred env mod (some Err.send) w2)
        | Reply.response status body complete =>
          if status ≠ 206 ∧ status ≠ 200 then
            if status = 416 then
              match attemptDownload env fuel mod (Remove w2 (tmpFileName env mod)) with
              | none => none
              | some (r, w3) => some (r, deferred env mod none w3)
            else some (some (Err.status status), deferred env mod none w2)
          else
            let w3 : World := { w2 with fs := appendFile w2.fs (tmpFileName env mod) body }
            if complete then some (none, deferred env mod none w3)
            else some (some Err.copy, deferred env mod (some Err.copy) w3)

/-! ## The retry loop (`downloadMod`) -/

/-- Steps of the retry loop: a call of `attemptDownload`, a `time.Sleep` of the
given number of seconds, and the final failure message. -/
inductive RetryStep where
  | attempt
  | sleep (seconds : Nat)
  | gaveUp
  deriving DecidableEq, Repr

def maxRetries : Nat := 100

/-- The loop `for retries < maxRetries` of `downloadMod`, for any attempt
function over any state. `budget` is `maxRetries - retries`. The result
is the sequence of steps taken and the final state; `none` when an attempt
does not return. -/
def downloadModWith {σ : Type} (attempt : σ → Option (Option Err × σ)) :
    Nat → σ → Option (List RetryStep × σ)
  | 0, s => some ([RetryStep.gaveUp], s)
  | budget + 1, s =>
    match attempt s with
    | none => none
    | some (none, s1) => some ([RetryStep.attempt], s1)
    | some (some _, s1) =>
      match downloadModWith attempt budget s1 with
      | none => none
      | some (steps, s2) => some (RetryStep.attempt :: RetryStep.sleep 2 :: steps, s2)

/-- The function `downloadMod`: the retry loop around `attemptDownload`. -/
def downloadMod (env : Env) (fuel : Nat) (mod : Mod) (w : World) :
    Option (List RetryStep × World) :=
  downloadModWith (attemptDownload env fuel mod) maxRetries w

/-! ## The manifest loop (`Download`) -/

/-- Calls the manifest loop makes on its collaborators: the status text (kept as
its arguments: file name, size, index, total), `DownloadBar.SetValue`,
`DownloadBar.Max`, the call of `downloadMod`, and the final
"download finished" status. -/
inductive Action where
  | status (fileName : String) (size : Int) (index total : Nat)
  | barValue (v : Int)
  | barMax (m : Int)
  | transfer (mod : Mod)
  | finished
  deriving DecidableEq, Repr

/-- The loop `for i, mod := range Mods` of `Download`, for any transfer function
over any state; `i` is the index of the head of the remaining list. -/
def DownloadLoop {σ : Type} (transfer : Mod → σ → Option σ) (modCount : Nat) :
    Nat → List Mod → σ → Option (List Action × σ)
  | _, [], s => some ([], s)
  | i, mod :: rest, s =>
    if mod.Typ = 1 then DownloadLoop transfer modCount (i + 1) rest s
    else
      match transfer mod s with
      | none => none
      | some s1 =>
        match DownloadLoop transfer modCount (i + 1) rest s1 with
        | none => none
        | some (acts, s2) =>
          some (Action.status mod.FileName mod.Size i modCount :: Action.barValue 0 ::
            Action.barMax mod.Size :: Action.transfer mod :: acts, s2)

/-- The goroutine of `Download` for a manifest `Mods` already fetched:
`modCount := len(Mods)`, the loop, then the final status. -/
def DownloadWith {σ : Type} (transfer : Mod → σ → Option σ) (Mods : List Mod) (s : σ) :
    Option (List Action × σ) :=
  match DownloadLoop transfer Mods.length 0 Mods s with
  | none => none
  | some (acts, s1) => some (acts ++ [Action.finished], s1)

/-- The function `Download` with `downloadMod` as the transfer. -/
def Download (env : Env) (fuel : Nat) (Mods : List Mod) (w : World) :
    Option (List Action × World) :=
  DownloadWith (fun mod w1 => (downloadMod env fuel mod w1).map Prod.snd) Mods w

/-! ## Observations on runs -/

/-- Result of the call of the attempt function that the retry loop makes after
`i` failed calls, starting in state `s`; `none` when one of the `i` earlier
calls did not fail or did not return. -/
def nthAttempt {σ : Type} (attempt : σ → Option (Option Err × σ)) :
    Nat → σ → Option (Option Err × σ)
  | 0, s => attempt s
  | i + 1, s =>
    match attempt s with
    | some (some _, s1) => nthAttempt attempt i s1
    | _ => none

/-- Number of `attemptDownload` calls in a run of the retry loop. -/
def attemptCount (steps : List RetryStep) : Nat :=
  steps.count RetryStep.attempt

/-- Durations of the sleeps in a run of the retry loop, in order. -/
def sleepsOf : List RetryStep → List Nat
  | [] => []
  | RetryStep.sleep n :: rest => n :: sleepsOf rest
  | _ :: rest => sleepsOf rest

/-- The steps of a run whose first `k` attempts fail and whose next one
succeeds: after every failed attempt one sleep of 2 seconds. -/
def failThenSucceed : Nat → List RetryStep
  | 0 => [RetryStep.attempt]
  | k + 1 => RetryStep.attempt :: RetryStep.sleep 2 :: failThenSucceed k

/-- The steps of a run in which `n` attempts fail, each followed by a sleep of
2 seconds, and the loop gives up. -/
def failThenGiveUp : Nat → List RetryStep
  | 0 => [RetryStep.gaveUp]
  | n + 1 => RetryStep.attempt :: RetryStep.sleep 2 :: failThenGiveUp n

/-- Items handed to `downloadMod`, in call order. -/
def transfersOf : List Action → List Mod
  | [] => []
  | Action.transfer m :: rest => m :: transfersOf rest
  | _ :: rest => transfersOf rest

/-- File names shown by the per-item status messages, in order. -/
def statusNames : List Action → List String
  | [] => []
  | Action.status name _ _ _ :: rest => name :: statusNames rest
  | _ :: rest => statusNames rest

/-- Denominators (the `total` of `index/total`) of the per-item status
messages, in order. -/
def statusTotals : List Action → List Nat
  | [] => []
  | Action.status _ _ _ total :: rest => total :: statusTotals rest
  | _ :: rest => statusTotals rest

/-- Items of the manifest that are not of kind Skip (`Type == 1`). -/
def nonSkip (Mods : List Mod) : List Mod :=
  Mods.filter (fun m => decide (m.Typ ≠ 1))

/-- Number of successful renames onto `dst` recorded in a log. -/
def renamesOnto (dst : Path) : List Event → Nat
  | [] => 0
  | Event.renamed _ d :: rest => (if d = dst then 1 else 0) + renamesOnto dst rest
  | _ :: rest => renamesOnto dst rest

/-- Number of calls of `Unzip` recorded in a log. -/
def unzipCalls : List Event → Nat
  | [] => 0
  | Event.unzip _ _ :: rest => 1 + unzipCalls rest
  | _ :: rest => unzipCalls rest

/-- The decoded name of the entry, when it decodes, stays inside the
destination. -/
def entryInside (env : Env) (dest : String) (f : ZipEntry) : Bool :=
  match env.decodeFileName f.Name with
  | none => true
  | some name => nameInside env.drive dest name

/-- The file a file entry is extracted to is created writable or is there
already: the entry is a directory, or its mode has the owner write bit, or
its output path is taken in `fs`. -/
def entryReopens (env : Env) (dest : String) (fs : FS) (f : ZipEntry) : Prop :=
  f.isDir = false → ownerWritable f.Mode = true ∨
    ∀ name, env.decodeFileName f.Name = some name → fs (outputPath env dest name) ≠ none

/-- Shape of a node: what stays fixed once it exists (directory or file, and
for a file whether it may be written), not its content. -/
def Node.shape : Option Node → Option (Option Bool)
  | none => none
  | some Node.dir => some none
  | some (Node.file _ w) => some (some w)

/-- Two file systems with the same nodes up to file contents. -/
def sameShape (g f : FS) : Prop :=
  ∀ q, Node.shape (g q) = Node.shape (f q)

/-- Every node of `s` is still there in `f`, with the same shape. -/
def grows (s f : FS) : Prop :=
  ∀ q, s q ≠ none → Node.shape (s q) = Node.shape (f q)

/-- The temporary file holds `pre` when an attempt starts: it is a writable file
with content `pre`, or it is missing (`pre` is empty) and can be created. -/
def startsWith (fs : FS) (p : Path) (pre : Bytes) : Prop :=
  parentIsDir fs p = true ∧ (fs p = some (Node.file pre true) ∨ (fs p = none ∧ pre = []))

/-- The body is the part of the resource from offset `n` on. -/
def bodyFrom (resource : Bytes) (n : Nat) (body : Bytes) : Prop :=
  n ≤ resource.length ∧ resource.drop n = body

/-- World once the request of an attempt has been sent: the temporary file is
open with content `pre`, and the request carries its length as offset. -/
def requestSent (env : Env) (mod : Mod) (w : World) (pre : Bytes) : World :=
  { fs := w.fs.set (tmpFileName env mod) (some (Node.file pre true)),
    requests := w.requests + 1,
    log := w.log ++ [Event.get mod.Url (rangeHeader pre.length)] }

/-! ## Sample inputs -/

/-- The manifest of the specification's scenario. -/
def sampleManifest : List Mod :=
  [⟨"a.zip", "u/a.zip", 100, 0⟩, ⟨"b", "u/b", 0, 1⟩, ⟨"c.zip", "u/c.zip", 50, 2⟩]

/-- A transfer that only records the names it was given. -/
def recordName (m : Mod) (names : List String) : Option (List String) :=
  some (names ++ [m.FileName])

/-- The calls `Download` makes on the sample manifest. -/
def sampleActions : List Action :=
  [Action.status "a.zip" 100 0 3, Action.barValue 0, Action.barMax 100,
   Action.transfer ⟨"a.zip", "u/a.zip", 100, 0⟩,
   Action.status "c.zip" 50 2 3, Action.barValue 0, Action.barMax 50,
   Action.transfer ⟨"c.zip", "u/c.zip", 50, 2⟩, Action.finished]

/-- An environment with the given server: the working directory is `dl` on
volume `C:`, the extraction roots are absolute paths on that volume, the
archive reader rejects every file, names decode to themselves. -/
def sampleEnv (server : Nat → String → Nat → Reply) : Env where
  cwd := ["dl"]
  drive := "C:"
  SD2DModPath := "/game/Mods"
  SD2DMapPath := "/game/Data/Worlds"
  validUrl := fun _ => true
  server := server
  readZip := fun _ => none
  decodeFileName := some

/-- A server that answers every request with `404` and an empty body. -/
def notFoundServer : Nat → String → Nat → Reply :=
  fun _ _ _ => Reply.response 404 [] true

/-- A server that holds a five-byte resource and honours the range of every
request. -/
def rangeServer : Nat → String → Nat → Reply :=
  fun _ _ start => Reply.response 206 ([1, 2, 3, 4, 5].drop start) true

/-- A server that answers the first request with `416` and then serves the
five-byte resource in full. -/
def restartServer : Nat → String → Nat → Reply :=
  fun n _ start =>
    if n = 0 then Reply.response 416 [] true
    else Reply.response 200 ([1, 2, 3, 4, 5].drop start) true

/-- A server that cannot be reached for the first three requests and then
serves the five-byte resource from the offset asked for. -/
def flakyServer : Nat → String → Nat → Reply :=
  fun n _ start =>
    if n < 3 then Reply.failed else Reply.response 206 ([1, 2, 3, 4, 5].drop start) true

/-- The sample environment with a URL that `http.NewRequest` rejects. -/
def badUrlEnv : Env :=
  { sampleEnv rangeServer with validUrl := fun _ => false }

/-- The environment of the extraction samples. -/
def extractEnv : Env :=
  sampleEnv notFoundServer

/-- A mod archive of five bytes. -/
def sampleMod : Mod :=
  ⟨"a.zip", "http://x/a.zip", 5, 0⟩

/-- A world with an empty download directory. -/
def freshWorld : World :=
  { fs := fun p => if p = ["dl"] then some Node.dir else none, requests := 0, log := [] }

/-- A world whose download directory holds a two-byte temporary file. -/
def resumeWorld : World :=
  { fs := fun p =>
      if p = ["dl"] then some Node.dir
      else if p = ["dl", "a.zip.tmp"] then some (Node.file [1, 2] true)
      else none,
    requests := 0, log := [] }

/-- A world whose two-byte temporary file may not be written. -/
def readOnlyTmpWorld : World :=
  { fs := fun p =>
      if p = ["dl"] then some Node.dir
      else if p = ["dl", "a.zip.tmp"] then some (Node.file [1, 2] false)
      else none,
    requests := 0, log := [] }

/-- A world with a two-byte temporary file and a directory at the final
name. -/
def dirAtFinalWorld : World :=
  { fs := fun p =>
      if p = ["dl"] ∨ p = ["dl", "a.zip"] then some Node.dir
      else if p = ["dl", "a.zip.tmp"] then some (Node.file [1, 2] true)
      else none,
    requests := 0, log := [] }

/-- The mod root used by the extraction samples. -/
def sampleDest : String :=
  "/game/Mods"

/-- A file system with only the mod root. -/
def destOnly : FS :=
  fun p => if p = ["game"] ∨ p = ["game", "Mods"] then some Node.dir else none

/-- A file system in which a regular file named `docs` sits in the mod root. -/
def docsIsFile : FS :=
  fun p =>
    if p = ["game"] ∨ p = ["game", "Mods"] then some Node.dir
    else if p = ["game", "Mods", "docs"] then some (Node.file [7] true)
    else none

/-- A file system with the working directory of the samples and nothing
else. -/
def cwdOnly : FS :=
  fun p => if p = ["dl"] then some Node.dir else none

/-- An archive with a directory entry followed by a file entry. -/
def dirThenFile : List ZipEntry :=
  [⟨"docs/", true, 0o755, true, [], true⟩, ⟨"readme.txt", false, 0o644, true, [1, 2], true⟩]

/-- An archive with one writable file below a directory. -/
def writableArchive : List ZipEntry :=
  [⟨"docs/readme.txt", false, 0o644, true, [1, 2], true⟩]

/-- The file system after extracting `writableArchive` into `destOnly`. -/
def writableExtracted : FS :=
  (unzipEntries extractEnv sampleDest writableArchive destOnly).2

/-- An archive with one read-only file (mode `0444`). -/
def readOnlyArchive : List ZipEntry :=
  [⟨"readme.txt", false, 0o444, true, [1, 2], true⟩]

/-- The file system after extracting `readOnlyArchive` into `destOnly`. -/
def readOnlyExtracted : FS :=
  (unzipEntries extractEnv sampleDest readOnlyArchive destOnly).2

/-- A file system in which a writable `readme.txt` sits in the mod root. -/
def readmePresent : FS :=
  fun p =>
    if p = ["game"] ∨ p = ["game", "Mods"] then some Node.dir
    else if p = ["game", "Mods", "readme.txt"] then some (Node.file [9] true)
    else none

/-- An archive whose only entry climbs out of the destination. -/
def climbingArchive : List ZipEntry :=
  [⟨"../evil.txt", false, 0o644, true, [6, 6], true⟩]

/-- An archive whose only entry has an absolute name. -/
def absoluteArchive : List ZipEntry :=
  [⟨"/abs/y.txt", false, 0o644, true, [6, 6], true⟩]

/-! ## Lemmas: components of a path string -/

theorem splitChars_ne_nil (cs : List Char) : splitChars cs ≠ [] := by
  cases cs with
  | nil => simp [splitChars]
  | cons c cs =>
    unfold splitChars
    split
    · simp
    · split <;> simp

theorem splitChars_cons_sep (x : Char) (l : List Char) (hx : isSeparator x = true) :
    splitChars (x :: l) = [] :: splitChars l := by
  simp [splitChars, hx]

theorem splitChars_cons_plain (x : Char) (l seg : List Char) (rest : List (List Char))
    (hx : isSeparator x = false) (h : splitChars l = seg :: rest) :
    splitChars (x :: l) = (x :: seg) :: rest := by
  simp [splitChars, hx, h]

theorem splitChars_sep (a b : List Char) (c : Char) (hc : isSeparator c = true) :
    splitChars (a ++ c :: b) = splitChars a ++ splitChars b := by
  induction a with
  | nil => simp [splitChars, hc]
  | cons x xs ih =>
    cases hx : isSeparator x with
    | true =>
      rw [List.cons_append, splitChars_cons_sep x _ hx, splitChars_cons_sep x _ hx, ih]
      rfl
    | false =>
      cases h : splitChars xs with
      | nil => exact absurd h (splitChars_ne_nil xs)
      | cons seg rest =>
        rw [List.cons_append, splitChars_cons_plain x xs seg rest hx h,
          splitChars_cons_plain x (xs ++ c :: b) seg (rest ++ splitChars b) hx (by rw [ih, h]; rfl)]
        rfl

theorem components_sep (a b : List Char) (c : Char) (hc : isSeparator c = true) :
    components (a ++ c :: b) = components a ++ components b := by
  simp [components, splitChars_sep a b c hc]

/-- Appending separator-free characters only extends the last component. -/
theorem splitChars_append_plain (a b : List Char) (hb : ∀ c ∈ b, isSeparator c = false) :
    ∃ init last, splitChars a = init ++ [last] ∧ splitChars (a ++ b) = init ++ [last ++ b] := by
  induction a with
  | nil =>
    refine ⟨[], [], rfl, ?_⟩
    induction b with
    | nil => rfl
    | cons x xs ihb =>
      have hx : isSeparator x = false := hb x (List.mem_cons_self _ _)
      have h := ihb (fun c hc => hb c (List.mem_cons_of_mem _ hc))
      simp only [List.nil_append] at h ⊢
      rw [splitChars_cons_plain x xs xs [] hx h]
  | cons x xs ih =>
    obtain ⟨init, last, h1, h2⟩ := ih
    cases hx : isSeparator x with
    | true =>
      refine ⟨[] :: init, last, ?_, ?_⟩
      · rw [splitChars_cons_sep x _ hx, h1]; rfl
      · rw [List.cons_append, splitChars_cons_sep x _ hx, h2]; rfl
    | false =>
      cases init with
      | nil =>
        refine ⟨[], x :: last, ?_, ?_⟩
        · rw [splitChars_cons_plain x xs last [] hx (by simpa using h1)]; rfl
        · rw [List.cons_append, splitChars_cons_plain x _ (last ++ b) [] hx (by simpa using h2)]
          rfl
      | cons seg rest =>
        refine ⟨(x :: seg) :: rest, last, ?_, ?_⟩
        · rw [splitChars_cons_plain x xs seg (rest ++ [last]) hx (by simpa using h1)]; rfl
        · rw [List.cons_append,
            splitChars_cons_plain x _ seg (rest ++ [last ++ b]) hx (by simpa using h2)]
          rfl

/-! ## Lemmas: anchors -/

theorem anchorOf_short_nil (drive : String) : anchorOf drive [] = plainAnchor [] := rfl

theorem anchorOf_short_one (drive : String) (c : Char) : anchorOf drive [c] = plainAnchor [c] := rfl

theorem startsWithSeparator_append (a t : List Char) (ha : a ≠ []) :
    startsWithSeparator (a ++ t) = startsWithSeparator a := by
  cases a with
  | nil => exact absurd rfl ha
  | cons x xs => rfl

/-- What is appended after the second character does not move the anchor, unless
it completes an empty remainder. -/
theorem anchorOf_append_long (drive : String) (c d : Char) (rest t : List Char)
    (h : rest ≠ [] ∨ startsWithSeparator t = false) :
    anchorOf drive (c :: d :: rest ++ t)
      = ((anchorOf drive (c :: d :: rest)).1, (anchorOf drive (c :: d :: rest)).2 ++ t) := by
  have hs : startsWithSeparator (rest ++ t) = startsWithSeparator rest := by
    rcases h with h | h
    · exact startsWithSeparator_append rest t h
    · cases rest with
      | nil => simpa [startsWithSeparator] using h
      | cons x xs => rfl
  simp only [List.cons_append, anchorOf]
  split
  · split
    · simp [hs]
    · simp
  · simp [plainAnchor, startsWithSeparator]

theorem anchorOf_append_tmp (drive : String) (s t : List Char) (t0 : Char) (ts : List Char)
    (ht : t = t0 :: ts) (h1 : t0 ≠ ':') (h2 : isSeparator t0 = false)
    (h3 : t0.isAlpha = false) :
    anchorOf drive (s ++ t) = ((anchorOf drive s).1, (anchorOf drive s).2 ++ t) := by
  subst ht
  match s with
  | [] =>
    cases ts with
    | nil => simp [anchorOf, plainAnchor, startsWithSeparator, h2]
    | cons t1 tr =>
      simp only [List.nil_append, anchorOf, h3, Bool.false_eq_true, and_false, if_false]
      simp [plainAnchor, startsWithSeparator, h2]
  | [c] =>
    simp only [List.singleton_append, anchorOf, h1, false_and, if_false]
    simp [plainAnchor, startsWithSeparator]
  | c :: d :: rest =>
    exact anchorOf_append_long drive c d rest _ (Or.inr (by simp [startsWithSeparator, h2]))

/-! ## Lemmas: the path of the temporary name -/

theorem Clean_snoc (segs : List String) (x : String) :
    Clean (segs ++ [x]) = cleanStep (Clean segs) x := by
  simp [Clean, List.foldl_append]

theorem cleanStep_plain (acc : Path) (x : String) (h : 2 < x.data.length) :
    cleanStep acc x = acc ++ [x] := by
  have h1 : x ≠ "" := by intro e; rw [e] at h; simp at h
  have h2 : x ≠ "." := by intro e; rw [e] at h; simp at h
  have h3 : x ≠ ".." := by intro e; rw [e] at h; simp at h
  simp [cleanStep, h1, h2, h3]

theorem cleanStep_length (acc : Path) (x : String) :
    cleanStep acc x = acc ∨ cleanStep acc x = acc.dropLast ∨ cleanStep acc x = acc ++ [x] := by
  unfold cleanStep
  split
  · exact Or.inl rfl
  · split
    · exact Or.inr (Or.inl rfl)
    · exact Or.inr (Or.inr rfl)

/-- The path of `name ++ ".tmp"` ends in a component of its own and differs from
the path of `name`. -/
theorem resolveChars_tmp (cwd : Path) (drive : String) (name : List Char) :
    ∃ dir leaf, resolveChars cwd drive (name ++ ['.', 't', 'm', 'p']) = dir ++ [leaf]
      ∧ resolveChars cwd drive name ≠ dir ++ [leaf] := by
  have ha := anchorOf_append_tmp drive name ['.', 't', 'm', 'p'] '.' ['t', 'm', 'p'] rfl
    (by decide) (by decide) (by decide)
  obtain ⟨init, last, h1, h2⟩ := splitChars_append_plain (anchorOf drive name).2
    ['.', 't', 'm', 'p'] (by decide)
  have hx : 2 < (String.mk (last ++ ['.', 't', 'm', 'p'])).data.length := by
    simp
  refine ⟨anchorFixed (anchorOf drive name).1
      ++ Clean (anchorBase cwd (anchorOf drive name).1 ++ init.map String.mk),
    String.mk (last ++ ['.', 't', 'm', 'p']), ?_, ?_⟩
  · simp only [resolveChars, ha, components, h2, List.map_append, List.map_cons, List.map_nil]
    rw [← List.append_assoc (anchorBase cwd _), Clean_snoc, cleanStep_plain _ _ hx]
    simp
  · simp only [resolveChars, components, h1, List.map_append, List.map_cons, List.map_nil]
    rw [← List.append_assoc (anchorBase cwd _), Clean_snoc, List.append_assoc]
    intro h
    have h' := List.append_cancel_left h
    rcases cleanStep_length (Clean (anchorBase cwd (anchorOf drive name).1 ++ init.map String.mk))
      (String.mk last) with e | e | e
    · rw [e] at h'
      have := congrArg List.length h'
      simp at this
    · rw [e] at h'
      have := congrArg List.length h'
      simp at this
    · rw [e] at h'
      have h3 := List.append_cancel_left h'
      simp only [List.cons.injEq, and_true] at h3
      have := congrArg (fun x : String => x.data.length) h3
      simp at this

/-! ## Lemmas: output paths under the destination -/

theorem foldl_climbStep_none (l : List String) : l.foldl climbStep none = none := by
  induction l with
  | nil => rfl
  | cons x xs ih => simpa [climbStep] using ih

theorem foldl_cleanStep_inside (base : Path) (segs : List String) :
    ∀ (ext : Path) (d : Nat), ext.length = d → (segs.foldl climbStep (some d)).isSome = true →
      base <+: segs.foldl cleanStep (base ++ ext) := by
  induction segs with
  | nil => intro ext d _ _; exact List.prefix_append base ext
  | cons seg rest ih =>
    intro ext d hlen h
    simp only [List.foldl_cons] at h ⊢
    by_cases h1 : seg = "" ∨ seg = "."
    · have hc : climbStep (some d) seg = some d := by simp [climbStep, h1]
      have hs : cleanStep (base ++ ext) seg = base ++ ext := by simp [cleanStep, h1]
      rw [hc] at h; rw [hs]
      exact ih ext d hlen h
    · by_cases h2 : seg = ".."
      · by_cases hd : d = 0
        · have hc : climbStep (some d) seg = none := by simp [climbStep, h1, h2, hd]
          rw [hc, foldl_climbStep_none] at h
          simp at h
        · have hc : climbStep (some d) seg = some (d - 1) := by simp [climbStep, h1, h2, hd]
          have hne : ext ≠ [] := by
            intro he; rw [he] at hlen; simp at hlen; omega
          have hs : cleanStep (base ++ ext) seg = base ++ ext.dropLast := by
            simp [cleanStep, h1, h2, List.dropLast_append_of_ne_nil _ hne]
          rw [hc] at h; rw [hs]
          exact ih ext.dropLast (d - 1) (by simp [hlen]) h
      · have hc : climbStep (some d) seg = some (d + 1) := by simp [climbStep, h1, h2]
        have hs : cleanStep (base ++ ext) seg = base ++ (ext ++ [seg]) := by
          simp [cleanStep, h1, h2]
        rw [hc] at h; rw [hs]
        exact ih (ext ++ [seg]) (d + 1) (by simp [hlen]) h

theorem Clean_append (a b : List String) : Clean (a ++ b) = b.foldl cleanStep (Clean a) := by
  simp [Clean, List.foldl_append]

theorem Clean_extend (a b : List String) (h : stays b = true) : Clean a <+: Clean (a ++ b) := by
  rw [Clean_append]
  have := foldl_cleanStep_inside (Clean a) b [] 0 rfl h
  simpa using this

theorem components_nil : components [] = [""] := rfl

theorem components_cons_sep (x : Char) (l : List Char) (hx : isSeparator x = true) :
    components (x :: l) = "" :: components l := by
  simp [components, splitChars_cons_sep x l hx]

theorem stays_dropWhile (n : List Char) (h : stays (components n) = true) :
    stays (components (n.dropWhile isSeparator)) = true := by
  induction n with
  | nil => exact h
  | cons x xs ih =>
    cases hx : isSeparator x with
    | true =>
      rw [List.dropWhile_cons_of_pos hx]
      apply ih
      rw [components_cons_sep x xs hx] at h
      simpa [stays, climbStep] using h
    | false =>
      rw [List.dropWhile_cons_of_neg (by simp [hx])]
      exact h

/-- Anchor and remainder of a destination that does not end in a colon are kept
when something is appended, provided a one-character destination is not
completed to a volume designator. -/
theorem anchorOf_append_dest (drive : String) (a t : List Char) (hne : a ≠ [])
    (hl : a.getLast? ≠ some ':')
    (h1 : ∀ c, a = [c] → ∀ r, t = ':' :: r → c.isAlpha = false) :
    anchorOf drive (a ++ t) = ((anchorOf drive a).1, (anchorOf drive a).2 ++ t)
      ∧ ∃ r, (anchorOf drive a).2 = r ++ [a.getLast hne] := by
  match a, hne, hl, h1 with
  | [c], _, _, h1 =>
    constructor
    · cases t with
      | nil => simp
      | cons d r =>
        by_cases hd : d = ':'
        · subst hd
          have := h1 c rfl r rfl
          simp [anchorOf, this, plainAnchor, startsWithSeparator]
        · simp [anchorOf, hd, plainAnchor, startsWithSeparator]
    · exact ⟨[], by simp [anchorOf, plainAnchor]⟩
  | [c, d], _, hl, _ =>
    have hd : d ≠ ':' := by
      intro e; apply hl; simp [e]
    constructor
    · simp [anchorOf, hd, plainAnchor, startsWithSeparator]
    · exact ⟨[c], by simp [anchorOf, hd, plainAnchor]⟩
  | c :: d :: x :: rest, _, _, _ =>
    constructor
    · exact anchorOf_append_long drive c d (x :: rest) t (Or.inl (by simp))
    · simp only [anchorOf]
      split
      · split
        · refine ⟨(x :: rest).dropLast, ?_⟩
          simp only
          rw [List.getLast_cons (by simp), List.getLast_cons (by simp),
            List.dropLast_append_getLast]
        · refine ⟨(x :: rest).dropLast, ?_⟩
          simp only
          rw [List.getLast_cons (by simp), List.getLast_cons (by simp),
            List.dropLast_append_getLast]
      · refine ⟨(c :: d :: x :: rest).dropLast, ?_⟩
        simp only [plainAnchor]
        rw [List.dropLast_append_getLast]

/-- Containment of the output path, on character lists. -/
theorem resolveChars_join_inside (cwd : Path) (drive : String) (dest name : List Char)
    (hd : dest.getLast? ≠ some ':')
    (hn : if dest = [] then
        (anchorOf drive name).1 = Anchor.cwd ∧ stays (components (anchorOf drive name).2) = true
      else stays (components name) = true) :
    resolveChars cwd drive dest <+: resolveChars cwd drive (joinChars dest name) := by
  by_cases hde : dest = []
  · subst hde
    simp only [if_true] at hn
    have hj : joinChars [] name = name := by simp [joinChars]
    rw [hj]
    have hdest : resolveChars cwd drive [] = Clean cwd := by
      have hc : cleanStep (Clean cwd) "" = Clean cwd := by simp [cleanStep]
      simp only [resolveChars, anchorOf, plainAnchor, startsWithSeparator, anchorFixed,
        anchorBase, List.nil_append, components_nil, Bool.false_eq_true, if_false]
      rw [Clean_snoc, hc]
    have hname : resolveChars cwd drive name
        = Clean (cwd ++ components (anchorOf drive name).2) := by
      simp only [resolveChars, hn.1, anchorFixed, anchorBase, List.nil_append]
    rw [hdest, hname]
    exact Clean_extend cwd _ hn.2
  · simp only [hde, if_false] at hn
    by_cases hne : name = []
    · have hj : joinChars dest name = dest := by simp [joinChars, hde, hne]
      rw [hj]
    · have hlast : dest.getLast? = some (dest.getLast hde) := List.getLast?_eq_getLast _ hde
      cases hsep : isSeparator (dest.getLast hde) with
      | true =>
        have hj : joinChars dest name = dest ++ name.dropWhile isSeparator := by
          simp [joinChars, hde, hne, hlast, hsep]
        obtain ⟨ha, r, hr⟩ := anchorOf_append_dest drive dest (name.dropWhile isSeparator) hde hd
          (by
            intro c hc r ht
            cases hal : c.isAlpha with
            | false => rfl
            | true =>
              have h1 : dest.getLast hde = c := by simp [hc]
              rw [h1] at hsep
              have : ∀ x : Char, isSeparator x = true → x.isAlpha = false := by
                intro x hx
                simp only [isSeparator, Bool.or_eq_true, decide_eq_true_eq] at hx
                rcases hx with hx | hx
                · subst hx; decide
                · have : x = Char.ofNat 92 := by
                    apply Char.ext
                    apply UInt32.ext
                    simpa [Char.toNat] using hx
                  subst this; decide
              rw [this c hsep] at hal
              exact absurd hal (by simp))
        rw [hj]
        simp only [resolveChars, ha]
        rw [hr, List.append_assoc, List.singleton_append,
          components_sep r (name.dropWhile isSeparator) _ hsep,
          components_sep r [] _ hsep, components_nil, ← List.append_assoc, ← List.append_assoc,
          Clean_snoc]
        have hc : ∀ acc, cleanStep acc "" = acc := by intro acc; simp [cleanStep]
        rw [hc]
        exact (List.prefix_append_right_inj _).mpr
          (Clean_extend _ _ (stays_dropWhile name hn))
      | false =>
        have hcol : dest.getLast hde ≠ ':' := by
          intro e; apply hd; rw [hlast, e]
        have hj : joinChars dest name = dest ++ Char.ofNat 92 :: name := by
          simp [joinChars, hde, hne, hlast, hsep, hcol]
        obtain ⟨ha, _⟩ := anchorOf_append_dest drive dest (Char.ofNat 92 :: name) hde hd
          (by intro c _ r ht; simp at ht)
        rw [hj]
        simp only [resolveChars, ha]
        rw [components_sep _ name _ (by decide), ← List.append_assoc]
        exact (List.prefix_append_right_inj _).mpr (Clean_extend _ _ hn)

/-- The output path of an entry whose name stays inside lies at or under the
path the destination resolves to. -/
theorem outputPath_inside (env : Env) (dest name : String)
    (hdest : dest.data.getLast? ≠ some ':') (h : nameInside env.drive dest name = true) :
    resolve env dest <+: outputPath env dest name := by
  unfold outputPath resolve Join
  apply resolveChars_join_inside env.cwd env.drive dest.data name.data hdest
  unfold nameInside at h
  by_cases hd : dest = ""
  · have hd2 : dest.data = [] := by rw [hd]
    rw [if_pos hd] at h
    rw [if_pos hd2]
    simpa using h
  · have hd2 : dest.data ≠ [] := fun e => hd (String.ext e)
    rw [if_neg hd] at h
    rw [if_neg hd2]
    exact h

/-! ## Lemmas: file-system operations -/

theorem FS.set_same (fs : FS) (p : Path) (n : Option Node) : fs.set p n p = n := by
  simp [FS.set]

theorem FS.set_other (fs : FS) (p q : Path) (n : Option Node) (h : q ≠ p) : fs.set p n q = fs q := by
  simp [FS.set, h]

theorem withDirs_hit (fs : FS) (p q : Path) (h1 : q ≠ []) (h2 : q <+: p) :
    withDirs fs p q = some Node.dir := by
  simp [withDirs, h1, h2]

theorem withDirs_miss (fs : FS) (p q : Path) (h : ¬ (q ≠ [] ∧ q <+: p)) :
    withDirs fs p q = fs q := by
  unfold withDirs
  rw [if_neg]
  simpa using h

theorem blocked_iff (fs : FS) (p : Path) :
    blocked fs p = true ↔ ∃ q, q ≠ [] ∧ q <+: p ∧ Node.isFile (fs q) = true := by
  simp only [blocked, List.any_eq_true, List.mem_inits, Bool.and_eq_true, Bool.not_eq_true',
    List.isEmpty_eq_false]
  constructor
  · rintro ⟨q, h1, h2, h3⟩; exact ⟨q, h2, h1, h3⟩
  · rintro ⟨q, h1, h2, h3⟩; exact ⟨q, h2, h1, h3⟩

theorem MkdirAll_blocked (fs : FS) (p : Path) (h : blocked fs p = true) :
    MkdirAll fs p = (some Err.mkdir, fs) := by
  simp [MkdirAll, h]

theorem MkdirAll_free (fs : FS) (p : Path) (h : blocked fs p = false) :
    MkdirAll fs p = (none, withDirs fs p) := by
  simp [MkdirAll, h]

theorem MkdirAll_snd (fs : FS) (p q : Path) :
    (MkdirAll fs p).2 q = fs q ∨ (q ≠ [] ∧ q <+: p ∧ (MkdirAll fs p).2 q = some Node.dir) := by
  cases hb : blocked fs p with
  | true => left; rw [MkdirAll_blocked fs p hb]
  | false =>
    rw [MkdirAll_free fs p hb]
    by_cases hq : q ≠ [] ∧ q <+: p
    · exact Or.inr ⟨hq.1, hq.2, withDirs_hit fs p q hq.1 hq.2⟩
    · exact Or.inl (withDirs_miss fs p q hq)

theorem parentIsDir_withDirs (fs : FS) (p : Path) : parentIsDir (withDirs fs (Dir p)) p = true := by
  unfold parentIsDir
  cases h : p.dropLast with
  | nil => rfl
  | cons a l =>
    have : withDirs fs (Dir p) (a :: l) = some Node.dir := by
      apply withDirs_hit
      · simp
      · simp [Dir, h]
    simp [this]

theorem not_prefix_dropLast (p : Path) (h : p ≠ []) : ¬ p <+: p.dropLast := by
  intro hp
  have h1 := hp.length_le
  have h2 : p.length ≠ 0 := by simpa using h
  simp at h1
  omega

theorem withDirs_Dir_self (fs : FS) (p : Path) (h : p ≠ []) : withDirs fs (Dir p) p = fs p :=
  withDirs_miss fs (Dir p) p (fun hq => not_prefix_dropLast p h hq.2)

theorem OpenFileTrunc_nonempty (fs fs2 : FS) (p : Path) (perm : Nat)
    (h : OpenFileTrunc fs p perm = some fs2) : p ≠ [] := by
  intro hp
  simp [OpenFileTrunc, hp] at h

/-- What a successful open-and-truncate found and what it left. -/
theorem OpenFileTrunc_some (fs fs2 : FS) (p : Path) (perm : Nat)
    (h : OpenFileTrunc fs p perm = some fs2) :
    p ≠ [] ∧ parentIsDir fs p = true ∧
      ((fs p = none ∧ fs2 = fs.set p (some (Node.file [] (ownerWritable perm)))) ∨
       (∃ d, fs p = some (Node.file d true) ∧ fs2 = fs.set p (some (Node.file [] true)))) := by
  have hp := OpenFileTrunc_nonempty fs fs2 p perm h
  have hp2 : p.isEmpty = false := by simpa using hp
  cases hpar : parentIsDir fs p with
  | false => simp [OpenFileTrunc, hp2, hpar] at h
  | true =>
    refine ⟨hp, rfl, ?_⟩
    cases hn : fs p with
    | none =>
      left
      simp [OpenFileTrunc, hp2, hpar, hn] at h
      exact ⟨rfl, h.symm⟩
    | some n =>
      cases n with
      | dir => simp [OpenFileTrunc, hp2, hpar, hn] at h
      | file d w =>
        cases w with
        | false => simp [OpenFileTrunc, hp2, hpar, hn] at h
        | true =>
          right
          simp [OpenFileTrunc, hp2, hpar, hn] at h
          exact ⟨d, rfl, h.symm⟩

theorem OpenFileTrunc_existing (fs : FS) (p : Path) (perm : Nat) (d : Bytes)
    (hp : p ≠ []) (hpar : parentIsDir fs p = true) (hn : fs p = some (Node.file d true)) :
    OpenFileTrunc fs p perm = some (fs.set p (some (Node.file [] true))) := by
  have hp2 : p.isEmpty = false := by simpa using hp
  simp [OpenFileTrunc, hp2, hpar, hn]

theorem appendFile_set (fs : FS) (p : Path) (old data : Bytes) (w : Bool) :
    appendFile (fs.set p (some (Node.file old w))) p data
      = fs.set p (some (Node.file (old ++ data) w)) := by
  funext q
  simp only [appendFile, FS.set_same]
  by_cases hq : q = p
  · simp [FS.set, hq]
  · simp [FS.set, hq]

theorem appendFile_other (fs : FS) (p q : Path) (data : Bytes) (hq : q ≠ p) :
    appendFile fs p data q = fs q := by
  unfold appendFile
  cases h : fs p with
  | none => rfl
  | some n =>
    cases n with
    | dir => rfl
    | file old w => exact FS.set_other _ _ _ _ hq

/-! ## Lemmas: one archive entry -/

theorem extractEntry_dir (env : Env) (dest : String) (fs : FS) (f : ZipEntry)
    (name : String) (hd : env.decodeFileName f.Name = some name) (hdir : f.isDir = true) :
    extractEntry env dest fs f = (none, (MkdirAll fs (outputPath env dest name)).2) := by
  simp [extractEntry, hd, hdir]

/-- A file entry that is extracted without error: what held before and the
file system after. -/
theorem extractEntry_file_ok (env : Env) (dest : String) (fs fs1 : FS)
    (f : ZipEntry) (name : String) (hd : env.decodeFileName f.Name = some name) (hdir : f.isDir = false)
    (h : extractEntry env dest fs f = (none, fs1)) :
    outputPath env dest name ≠ [] ∧ blocked fs (Dir (outputPath env dest name)) = false ∧
      f.opens = true ∧ f.intact = true ∧
      ((fs (outputPath env dest name) = none ∧
          fs1 = (withDirs fs (Dir (outputPath env dest name))).set (outputPath env dest name)
            (some (Node.file f.data (ownerWritable f.Mode)))) ∨
       (∃ d, fs (outputPath env dest name) = some (Node.file d true) ∧
          fs1 = (withDirs fs (Dir (outputPath env dest name))).set (outputPath env dest name)
            (some (Node.file f.data true)))) := by
  simp only [extractEntry, hd, hdir] at h
  cases hb : blocked fs (Dir (outputPath env dest name)) with
  | true => simp [MkdirAll_blocked _ _ hb] at h
  | false =>
    simp only [MkdirAll_free _ _ hb] at h
    cases ho : OpenFileTrunc (withDirs fs (Dir (outputPath env dest name))) (outputPath env dest name) f.Mode with
    | none => simp [ho] at h
    | some fs2 =>
      obtain ⟨hp, _, hcase⟩ := OpenFileTrunc_some _ _ _ _ ho
      simp only [ho] at h
      cases hop : f.opens with
      | false => simp [hop] at h
      | true =>
        cases hin : f.intact with
        | false => simp [hop, hin] at h
        | true =>
          simp only [hop, hin, Bool.not_true, Bool.false_eq_true, if_false, if_true,
            Prod.mk.injEq, true_and] at h
          refine ⟨hp, rfl, rfl, rfl, ?_⟩
          rw [withDirs_Dir_self fs _ hp] at hcase
          rcases hcase with ⟨h1, h2⟩ | ⟨d, h1, h2⟩
          · left
            refine ⟨h1, ?_⟩
            rw [← h, h2, appendFile_set]
            simp
          · right
            refine ⟨d, h1, ?_⟩
            rw [← h, h2, appendFile_set]
            simp

/-- A file entry over an existing writable file, below existing directories,
is extracted without error. -/
theorem extractEntry_file_run (env : Env) (dest : String) (fs : FS)
    (f : ZipEntry) (name : String) (d : Bytes) (hd : env.decodeFileName f.Name = some name)
    (hdir : f.isDir = false) (hp : outputPath env dest name ≠ [])
    (hb : blocked fs (Dir (outputPath env dest name)) = false) (hop : f.opens = true)
    (hin : f.intact = true) (hn : fs (outputPath env dest name) = some (Node.file d true)) :
    extractEntry env dest fs f
      = (none, (withDirs fs (Dir (outputPath env dest name))).set (outputPath env dest name)
          (some (Node.file f.data true))) := by
  have ho := OpenFileTrunc_existing (withDirs fs (Dir (outputPath env dest name))) (outputPath env dest name) f.Mode d hp
    (parentIsDir_withDirs fs _) (by rw [withDirs_Dir_self fs _ hp]; exact hn)
  simp only [extractEntry, hd, hdir, MkdirAll_free _ _ hb, ho, hop, hin]
  simp [appendFile_set]

/-! ## Lemmas: shapes of file systems -/

theorem shape_dir (x : Option Node) : Node.shape x = some none ↔ x = some Node.dir := by
  cases x with
  | none => simp [Node.shape]
  | some n => cases n <;> simp [Node.shape]

theorem shape_file (x : Option Node) (w : Bool) :
    Node.shape x = some (some w) ↔ ∃ d, x = some (Node.file d w) := by
  cases x with
  | none => simp [Node.shape]
  | some n => cases n <;> simp [Node.shape]

theorem shape_none (x : Option Node) : Node.shape x = none ↔ x = none := by
  cases x with
  | none => simp [Node.shape]
  | some n => cases n <;> simp [Node.shape]

theorem isFile_shape (x y : Option Node) (h : Node.shape x = Node.shape y) :
    Node.isFile x = Node.isFile y := by
  cases x with
  | none => cases y with
    | none => rfl
    | some m => cases m <;> simp [Node.shape] at h
  | some n =>
    cases n with
    | dir => cases y with
      | none => simp [Node.shape] at h
      | some m => cases m <;> simp [Node.shape] at h; rfl
    | file d w => cases y with
      | none => simp [Node.shape] at h
      | some m => cases m <;> simp [Node.shape] at h; rfl

theorem grows_refl (s : FS) : grows s s := fun _ _ => rfl

theorem grows_trans (a b c : FS) (h1 : grows a b) (h2 : grows b c) : grows a c := by
  intro q hq
  have e1 := h1 q hq
  have hb : b q ≠ none := by
    intro hb
    rw [hb] at e1
    exact hq ((shape_none _).mp e1)
  rw [e1]
  exact h2 q hb

theorem blocked_false (fs : FS) (p q : Path) (h : blocked fs p = false) (h1 : q ≠ [])
    (h2 : q <+: p) : Node.isFile (fs q) = false := by
  cases hf : Node.isFile (fs q) with
  | false => rfl
  | true =>
    have : blocked fs p = true := (blocked_iff fs p).mpr ⟨q, h1, h2, hf⟩
    rw [h] at this
    exact absurd this (by simp)

theorem grows_withDirs (fs : FS) (p : Path) (h : blocked fs p = false) : grows fs (withDirs fs p) := by
  intro q hq
  by_cases hp : q ≠ [] ∧ q <+: p
  · rw [withDirs_hit fs p q hp.1 hp.2]
    have hf := blocked_false fs p q h hp.1 hp.2
    cases hx : fs q with
    | none => exact absurd hx hq
    | some n =>
      cases n with
      | dir => rfl
      | file d w => simp [hx, Node.isFile] at hf
  · rw [withDirs_miss fs p q hp]

theorem grows_MkdirAll (fs : FS) (p : Path) : grows fs (MkdirAll fs p).2 := by
  cases hb : blocked fs p with
  | true => rw [MkdirAll_blocked fs p hb]; exact grows_refl fs
  | false => rw [MkdirAll_free fs p hb]; exact grows_withDirs fs p hb

theorem grows_set_file (fs : FS) (p : Path) (data : Bytes) (w : Bool)
    (h : fs p = none ∨ ∃ d, fs p = some (Node.file d w)) :
    grows fs (fs.set p (some (Node.file data w))) := by
  intro q hq
  by_cases hqp : q = p
  · subst hqp
    rcases h with h | ⟨d, h⟩
    · exact absurd h hq
    · rw [FS.set_same, h]; rfl
  · rw [FS.set_other _ _ _ _ hqp]

/-- A file entry extracted without error leaves a writable file when its mode has
the owner write bit. -/
theorem extractEntry_file_ok_writable (env : Env) (dest : String)
    (fs fs1 : FS) (f : ZipEntry) (name : String) (hd : env.decodeFileName f.Name = some name)
    (hdir : f.isDir = false)
    (hw : ownerWritable f.Mode = true ∨ fs (outputPath env dest name) ≠ none)
    (h : extractEntry env dest fs f = (none, fs1)) :
    fs1 = (withDirs fs (Dir (outputPath env dest name))).set (outputPath env dest name)
      (some (Node.file f.data true)) := by
  obtain ⟨_, _, _, _, hcase⟩ := extractEntry_file_ok env dest fs fs1 f name hd hdir h
  rcases hcase with ⟨h1, h2⟩ | ⟨_, _, h2⟩
  · rcases hw with hw | hw
    · rw [h2, hw]
    · exact absurd h1 hw
  · exact h2

theorem extractEntry_ok_grows (env : Env) (dest : String) (fs fs1 : FS)
    (f : ZipEntry) (h : extractEntry env dest fs f = (none, fs1)) : grows fs fs1 := by
  cases hd : env.decodeFileName f.Name with
  | none => simp [extractEntry, hd] at h
  | some name =>
    cases hdir : f.isDir with
    | true =>
      rw [extractEntry_dir env dest fs f name hd hdir] at h
      simp only [Prod.mk.injEq, true_and] at h
      rw [← h]
      exact grows_MkdirAll fs _
    | false =>
      obtain ⟨hp, hb, _, _, hcase⟩ := extractEntry_file_ok env dest fs fs1 f name hd hdir h
      have hself := withDirs_Dir_self fs (outputPath env dest name) hp
      rcases hcase with ⟨h1, h2⟩ | ⟨d, h1, h2⟩
      · rw [h2]
        exact grows_trans _ _ _ (grows_withDirs fs _ hb)
          (grows_set_file _ _ _ _ (Or.inl (by rw [hself]; exact h1)))
      · rw [h2]
        exact grows_trans _ _ _ (grows_withDirs fs _ hb)
          (grows_set_file _ _ _ _ (Or.inr ⟨d, by rw [hself]; exact h1⟩))

theorem unzipEntries_cons_ok (env : Env) (dest : String) (f : ZipEntry)
    (rest : List ZipEntry) (fs fs2 : FS)
    (h : unzipEntries env dest (f :: rest) fs = (none, fs2)) :
    ∃ fs1, extractEntry env dest fs f = (none, fs1)
      ∧ unzipEntries env dest rest fs1 = (none, fs2) := by
  cases he : extractEntry env dest fs f with
  | mk r fs1 =>
    cases r with
    | some e => simp [unzipEntries, he] at h
    | none =>
      simp only [unzipEntries, he] at h
      exact ⟨fs1, rfl, h⟩

theorem unzipEntries_ok_grows (env : Env) (dest : String)
    (entries : List ZipEntry) :
    ∀ fs fs2, unzipEntries env dest entries fs = (none, fs2) → grows fs fs2 := by
  induction entries with
  | nil =>
    intro fs fs2 h
    simp only [unzipEntries, Prod.mk.injEq, true_and] at h
    rw [← h]; exact grows_refl fs
  | cons f rest ih =>
    intro fs fs2 h
    obtain ⟨fs1, h1, h2⟩ := unzipEntries_cons_ok env dest f rest fs fs2 h
    exact grows_trans _ _ _ (extractEntry_ok_grows env dest fs fs1 f h1) (ih fs1 fs2 h2)

/-! ## Lemmas: running the extraction a second time -/

/-- Directories that exist in the shape `f` are no obstacle in `g`, and making
them again changes nothing. -/
theorem withDirs_known (g f : FS) (p : Path) (hgf : sameShape g f)
    (hdirs : ∀ q, q ≠ [] → q <+: p → f q = some Node.dir) :
    blocked g p = false ∧ withDirs g p = g := by
  have hg : ∀ q, q ≠ [] → q <+: p → g q = some Node.dir := by
    intro q h1 h2
    apply (shape_dir _).mp
    rw [hgf q, hdirs q h1 h2]; rfl
  constructor
  · cases hb : blocked g p with
    | false => rfl
    | true =>
      obtain ⟨q, h1, h2, h3⟩ := (blocked_iff g p).mp hb
      rw [hg q h1 h2] at h3
      simp [Node.isFile] at h3
  · funext q
    by_cases hq : q ≠ [] ∧ q <+: p
    · rw [withDirs_hit g p q hq.1 hq.2, hg q hq.1 hq.2]
    · exact withDirs_miss g p q hq

theorem grows_dir (s f : FS) (q : Path) (h : grows s f) (hq : s q = some Node.dir) :
    f q = some Node.dir := by
  apply (shape_dir _).mp
  rw [← h q (by rw [hq]; simp), hq]; rfl

/-- One entry of the second run. `s` is the state of the first run before the
entry and `s1` after it, `f` the final state of the first run, `g` the
state of the second run before the entry. -/
theorem extractEntry_again (env : Env) (dest : String) (s s1 g f : FS)
    (e : ZipEntry) (hrun : extractEntry env dest s e = (none, s1))
    (hw : entryReopens env dest s e)
    (hsf : grows s1 f) (hgf : sameShape g f) (hg : ∀ q, g q = f q ∨ g q = s q) :
    ∃ g1, extractEntry env dest g e = (none, g1) ∧ sameShape g1 f
      ∧ ∀ q, g1 q = f q ∨ g1 q = s1 q := by
  cases hd : env.decodeFileName e.Name with
  | none => simp [extractEntry, hd] at hrun
  | some name =>
    cases hdir : e.isDir with
    | true =>
      rw [extractEntry_dir env dest s e name hd hdir] at hrun
      simp only [Prod.mk.injEq, true_and] at hrun
      rw [extractEntry_dir env dest g e name hd hdir]
      cases hb : blocked s (outputPath env dest name) with
      | true =>
        rw [MkdirAll_blocked s _ hb] at hrun
        simp only at hrun
        obtain ⟨q, h1, h2, h3⟩ := (blocked_iff s _).mp hb
        have hsq : s q ≠ none := by
          intro h0; rw [h0] at h3; simp [Node.isFile] at h3
        have hshape : Node.shape (g q) = Node.shape (s q) := by
          rw [hgf q, ← hsf q (by rw [← hrun]; exact hsq), ← hrun]
        have hgb : blocked g (outputPath env dest name) = true :=
          (blocked_iff g _).mpr ⟨q, h1, h2, by rw [isFile_shape _ _ hshape]; exact h3⟩
        rw [MkdirAll_blocked g _ hgb]
        refine ⟨g, rfl, hgf, ?_⟩
        intro q; rw [← hrun]; exact hg q
      | false =>
        rw [MkdirAll_free s _ hb] at hrun
        simp only at hrun
        have hdirs : ∀ q, q ≠ [] → q <+: outputPath env dest name → f q = some Node.dir := by
          intro q h1 h2
          apply grows_dir s1 f q hsf
          rw [← hrun]; exact withDirs_hit s _ q h1 h2
        obtain ⟨hgb, hgw⟩ := withDirs_known g f (outputPath env dest name) hgf hdirs
        rw [MkdirAll_free g _ hgb, hgw]
        refine ⟨g, rfl, hgf, ?_⟩
        intro q
        by_cases hq : q ≠ [] ∧ q <+: outputPath env dest name
        · left
          rw [hdirs q hq.1 hq.2]
          apply (shape_dir _).mp
          rw [hgf q, hdirs q hq.1 hq.2]; rfl
        · rw [← hrun, withDirs_miss s _ q hq]; exact hg q
    | false =>
      obtain ⟨hp, hb, hop, hin, _⟩ := extractEntry_file_ok env dest s s1 e name hd hdir hrun
      have hs1 := extractEntry_file_ok_writable env dest s s1 e name hd hdir
        (Or.imp_right (fun h => h name hd) (hw hdir)) hrun
      have hs1p : s1 (outputPath env dest name) = some (Node.file e.data true) := by
        rw [hs1, FS.set_same]
      have hs1q : ∀ q, q ≠ outputPath env dest name → s1 q = withDirs s (Dir (outputPath env dest name)) q := by
        intro q hq; rw [hs1, FS.set_other _ _ _ _ hq]
      have hdirs : ∀ q, q ≠ [] → q <+: Dir (outputPath env dest name) → f q = some Node.dir := by
        intro q h1 h2
        apply grows_dir s1 f q hsf
        have hne : q ≠ outputPath env dest name := by
          intro he; rw [he] at h2; exact not_prefix_dropLast _ hp h2
        rw [hs1q q hne]; exact withDirs_hit s _ q h1 h2
      obtain ⟨hgb, hgw⟩ := withDirs_known g f (Dir (outputPath env dest name)) hgf hdirs
      have hfp : Node.shape (f (outputPath env dest name)) = some (some true) := by
        rw [← hsf _ (by rw [hs1p]; simp), hs1p]; rfl
      obtain ⟨d, hgp⟩ := (shape_file _ true).mp (by rw [hgf]; exact hfp)
      rw [extractEntry_file_run env dest g e name d hd hdir hp hgb hop hin hgp, hgw]
      refine ⟨_, rfl, ?_, ?_⟩
      · intro q
        by_cases hq : q = outputPath env dest name
        · rw [hq, FS.set_same, hfp]; rfl
        · rw [FS.set_other _ _ _ _ hq]; exact hgf q
      · intro q
        by_cases hq : q = outputPath env dest name
        · right; rw [hq, FS.set_same, hs1p]
        · rw [FS.set_other _ _ _ _ hq]
          by_cases hq2 : q ≠ [] ∧ q <+: Dir (outputPath env dest name)
          · left
            rw [hdirs q hq2.1 hq2.2]
            apply (shape_dir _).mp
            rw [hgf q, hdirs q hq2.1 hq2.2]; rfl
          · rw [hs1q q hq, withDirs_miss s _ q hq2]; exact hg q

theorem entryReopens_grows (env : Env) (dest : String) (s s1 : FS) (e : ZipEntry)
    (hg : grows s s1) (h : entryReopens env dest s e) : entryReopens env dest s1 e := by
  intro hdir
  rcases h hdir with h | h
  · exact Or.inl h
  · refine Or.inr (fun name hn hnone => ?_)
    have h1 := hg _ (h name hn)
    rw [hnone] at h1
    exact h name hn ((shape_none _).mp h1)

theorem unzipEntries_again (env : Env) (dest : String) (entries : List ZipEntry) :
    ∀ (s g f : FS), unzipEntries env dest entries s = (none, f) →
      (∀ e, e ∈ entries → entryReopens env dest s e) →
      sameShape g f → (∀ q, g q = f q ∨ g q = s q) →
      unzipEntries env dest entries g = (none, f) := by
  induction entries with
  | nil =>
    intro s g f h _ _ hg
    simp only [unzipEntries, Prod.mk.injEq, true_and] at h
    have : g = f := by
      funext q
      rcases hg q with h1 | h1
      · exact h1
      · rw [h1, h]
    rw [this]; rfl
  | cons e rest ih =>
    intro s g f h hw hgf hg
    obtain ⟨s1, h1, h2⟩ := unzipEntries_cons_ok env dest e rest s f h
    have hsf := unzipEntries_ok_grows env dest rest s1 f h2
    have hss1 := extractEntry_ok_grows env dest s s1 e h1
    obtain ⟨g1, hg1, hgf1, hgs1⟩ := extractEntry_again env dest s s1 g f e h1
      (hw e (List.mem_cons_self _ _)) hsf hgf hg
    simp only [unzipEntries, hg1]
    exact ih s1 g1 f h2
      (fun e2 he2 => entryReopens_grows env dest s s1 e2 hss1 (hw e2 (List.mem_cons_of_mem _ he2)))
      hgf1 hgs1

/-! ## Lemmas: the paths an extraction changes -/

theorem OpenFileTrunc_other (fs fs2 : FS) (p q : Path) (perm : Nat)
    (h : OpenFileTrunc fs p perm = some fs2) (hq : q ≠ p) : fs2 q = fs q := by
  unfold OpenFileTrunc at h
  split at h
  · simp at h
  · split at h
    · simp at h
    · split at h
      · simp at h
      · split at h
        · simp only [Option.some.injEq] at h; rw [← h]; exact FS.set_other _ _ _ _ hq
        · simp at h
      · simp only [Option.some.injEq] at h; rw [← h]; exact FS.set_other _ _ _ _ hq

theorem MkdirAll_change (fs : FS) (p q : Path) (h : (MkdirAll fs p).2 q ≠ fs q) :
    q ≠ [] ∧ q <+: p ∧ (MkdirAll fs p).2 q = some Node.dir ∧ fs q = none := by
  cases hb : blocked fs p with
  | true => rw [MkdirAll_blocked fs p hb] at h; exact absurd rfl h
  | false =>
    rcases MkdirAll_snd fs p q with h1 | ⟨h1, h2, h3⟩
    · exact absurd h1 h
    · refine ⟨h1, h2, h3, ?_⟩
      have hf := blocked_false fs p q hb h1 h2
      cases hx : fs q with
      | none => rfl
      | some n =>
        cases n with
        | dir => rw [h3, hx] at h; exact absurd rfl h
        | file d w => simp [hx, Node.isFile] at hf

theorem MkdirAll_keeps_dir (fs : FS) (p q : Path) (h : fs q = some Node.dir) :
    (MkdirAll fs p).2 q = some Node.dir := by
  rcases MkdirAll_snd fs p q with h1 | ⟨_, _, h3⟩
  · rw [h1, h]
  · exact h3

/-- The file system after one entry, at a path other than the output path, is
the one `os.MkdirAll` left. -/
theorem extractEntry_file_other (env : Env) (dest : String) (fs : FS) (f : ZipEntry)
    (name : String) (q : Path) (hd : env.decodeFileName f.Name = some name)
    (hdir : f.isDir = false) (hq : q ≠ outputPath env dest name) :
    (extractEntry env dest fs f).2 q = (MkdirAll fs (Dir (outputPath env dest name))).2 q := by
  simp only [extractEntry, hd, hdir]
  cases hm : MkdirAll fs (Dir (outputPath env dest name)) with
  | mk r fs1 =>
    cases r with
    | some e => rfl
    | none =>
      simp only
      cases ho : OpenFileTrunc fs1 (outputPath env dest name) f.Mode with
      | none => rfl
      | some fs2 =>
        have h2 : fs2 q = fs1 q := OpenFileTrunc_other _ _ _ _ _ ho hq
        have h3 : appendFile fs2 (outputPath env dest name) f.data q = fs1 q := by
          rw [appendFile_other _ _ _ _ hq, h2]
        cases hop : f.opens <;> cases hin : f.intact <;> simp [h2, h3]

/-- The file system after one entry, at the output path, is the one
`os.MkdirAll` left when the output path is the root or a directory. -/
theorem extractEntry_file_at_dir (env : Env) (dest : String) (fs : FS) (f : ZipEntry)
    (name : String) (hd : env.decodeFileName f.Name = some name) (hdir : f.isDir = false)
    (h : outputPath env dest name = [] ∨
      (MkdirAll fs (Dir (outputPath env dest name))).2 (outputPath env dest name)
        = some Node.dir) :
    (extractEntry env dest fs f).2 (outputPath env dest name)
      = (MkdirAll fs (Dir (outputPath env dest name))).2 (outputPath env dest name) := by
  simp only [extractEntry, hd, hdir]
  cases hm : MkdirAll fs (Dir (outputPath env dest name)) with
  | mk r fs1 =>
    rw [hm] at h
    cases r with
    | some e => rfl
    | none =>
      simp only
      cases ho : OpenFileTrunc fs1 (outputPath env dest name) f.Mode with
      | none => rfl
      | some fs2 =>
        obtain ⟨hp, _, hcase⟩ := OpenFileTrunc_some _ _ _ _ ho
        rcases h with h | h
        · exact absurd h hp
        · simp only at h
          rcases hcase with ⟨h1, _⟩ | ⟨d, h1, _⟩
          · rw [h1] at h; exact absurd h (by simp)
          · rw [h1] at h; exact absurd h (by simp)

theorem extractEntry_keeps_dir (env : Env) (dest : String) (fs : FS) (f : ZipEntry) (q : Path)
    (h : fs q = some Node.dir) : (extractEntry env dest fs f).2 q = some Node.dir := by
  cases hd : env.decodeFileName f.Name with
  | none => simp [extractEntry, hd, h]
  | some name =>
    cases hdir : f.isDir with
    | true =>
      rw [extractEntry_dir env dest fs f name hd hdir]
      exact MkdirAll_keeps_dir fs _ q h
    | false =>
      have hk := MkdirAll_keeps_dir fs (Dir (outputPath env dest name)) q h
      by_cases hq : q = outputPath env dest name
      · subst hq
        rw [extractEntry_file_at_dir env dest fs f name hd hdir (Or.inr hk)]
        exact hk
      · rw [extractEntry_file_other env dest fs f name q hd hdir hq]
        exact hk

theorem unzipEntries_keeps_dir (env : Env) (dest : String) (entries : List ZipEntry) (q : Path) :
    ∀ fs, fs q = some Node.dir → (unzipEntries env dest entries fs).2 q = some Node.dir := by
  induction entries with
  | nil => intro fs h; exact h
  | cons f rest ih =>
    intro fs h
    have h1 := extractEntry_keeps_dir env dest fs f q h
    cases he : extractEntry env dest fs f with
    | mk r fs1 =>
      rw [he] at h1
      cases r with
      | some e => simpa [unzipEntries, he] using h1
      | none =>
        simp only [unzipEntries, he]
        exact ih fs1 h1

/-- A path whose node one entry changes is the output path of the entry or a
missing ancestor of it that is made a directory. -/
theorem extractEntry_change (env : Env) (dest : String) (fs : FS) (f : ZipEntry) (q : Path)
    (hq : (extractEntry env dest fs f).2 q ≠ fs q) :
    ∃ name, env.decodeFileName f.Name = some name ∧ q <+: outputPath env dest name ∧
      (q = outputPath env dest name ∨
        ((extractEntry env dest fs f).2 q = some Node.dir ∧ fs q = none)) := by
  cases hd : env.decodeFileName f.Name with
  | none => simp [extractEntry, hd] at hq
  | some name =>
    refine ⟨name, rfl, ?_⟩
    cases hdir : f.isDir with
    | true =>
      rw [extractEntry_dir env dest fs f name hd hdir] at hq ⊢
      obtain ⟨_, h2, h3, h4⟩ := MkdirAll_change fs _ q hq
      exact ⟨h2, Or.inr ⟨h3, h4⟩⟩
    | false =>
      by_cases hqp : q = outputPath env dest name
      · exact ⟨by rw [hqp], Or.inl hqp⟩
      · rw [extractEntry_file_other env dest fs f name q hd hdir hqp] at hq ⊢
        obtain ⟨_, h2, h3, h4⟩ := MkdirAll_change fs _ q hq
        exact ⟨h2.trans (List.dropLast_prefix _), Or.inr ⟨h3, h4⟩⟩

/-- Every path whose node the extraction changes lies at or under `base`, or is
a missing ancestor of `base` that is made a directory, when every output
path lies at or under `base`. -/
theorem unzipEntries_change (env : Env) (dest : String) (base : Path)
    (entries : List ZipEntry)
    (hbase : ∀ f name, f ∈ entries → env.decodeFileName f.Name = some name →
      base <+: outputPath env dest name) :
    ∀ (fs : FS) (q : Path), (unzipEntries env dest entries fs).2 q ≠ fs q →
      base <+: q ∨
        (q <+: base ∧ (unzipEntries env dest entries fs).2 q = some Node.dir ∧ fs q = none) := by
  induction entries with
  | nil => intro fs q h; simp [unzipEntries] at h
  | cons f rest ih =>
    intro fs q h
    have ih' := ih (fun g name hg hn => hbase g name (List.mem_cons_of_mem _ hg) hn)
    have hres : (unzipEntries env dest (f :: rest) fs).2 q
        = (extractEntry env dest fs f).2 q
        ∨ (unzipEntries env dest (f :: rest) fs).2
            = (unzipEntries env dest rest (extractEntry env dest fs f).2).2 := by
      cases he : extractEntry env dest fs f with
      | mk r fs1 =>
        cases r with
        | some e => left; simp [unzipEntries, he]
        | none => right; simp [unzipEntries, he]
    by_cases h1 : (extractEntry env dest fs f).2 q = fs q
    · rcases hres with hres | hres
      · rw [hres] at h; exact absurd h1 h
      · rw [hres] at h ⊢
        rw [← h1] at h ⊢
        exact ih' _ q h
    · obtain ⟨name, hn, hpre, hcase⟩ := extractEntry_change env dest fs f q h1
      have hb := hbase f name (List.mem_cons_self _ _) hn
      rcases List.prefix_or_prefix_of_prefix hb hpre with hbq | hqb
      · exact Or.inl hbq
      · rcases hcase with hcase | ⟨hdir, hnone⟩
        · left; rw [hcase]; exact hb
        · right
          refine ⟨hqb, ?_, hnone⟩
          rcases hres with hres | hres
          · rw [hres]; exact hdir
          · rw [hres]; exact unzipEntries_keeps_dir env dest rest q _ hdir

/-! ## Lemmas: the temporary and the final name -/

theorem tmp_data (mod : Mod) :
    (mod.FileName ++ ".tmp").data = mod.FileName.data ++ ['.', 't', 'm', 'p'] := by
  rw [String.data_append]

theorem tmp_ne_final (env : Env) (mod : Mod) : tmpFileName env mod ≠ finalFileName env mod := by
  obtain ⟨dir, leaf, h1, h2⟩ := resolveChars_tmp env.cwd env.drive mod.FileName.data
  simp only [tmpFileName, finalFileName, resolve, tmp_data, h1]
  exact fun h => h2 h.symm

theorem tmp_ne_nil (env : Env) (mod : Mod) : tmpFileName env mod ≠ [] := by
  obtain ⟨dir, leaf, h1, _⟩ := resolveChars_tmp env.cwd env.drive mod.FileName.data
  simp only [tmpFileName, resolve, tmp_data, h1]
  simp

theorem dropLast_ne_self (p : Path) (h : p ≠ []) : p.dropLast ≠ p := by
  intro e
  have h1 := congrArg List.length e
  have h2 : p.length ≠ 0 := by simpa using h
  simp at h1
  omega

theorem parentIsDir_set_self (fs : FS) (p : Path) (n : Option Node) (hp : p ≠ []) :
    parentIsDir (fs.set p n) p = parentIsDir fs p := by
  unfold parentIsDir
  cases h : p.dropLast with
  | nil => rfl
  | cons a l =>
    have : fs.set p n (a :: l) = fs (a :: l) :=
      FS.set_other _ _ _ _ (by rw [← h]; exact dropLast_ne_self p hp)
    simp [this]

theorem parentIsDir_set_tmp (env : Env) (mod : Mod) (fs : FS) (n : Option Node) :
    parentIsDir (fs.set (tmpFileName env mod) n) (tmpFileName env mod)
      = parentIsDir fs (tmpFileName env mod) :=
  parentIsDir_set_self fs _ n (tmp_ne_nil env mod)

/-! ## Lemmas: opening the temporary file -/

theorem openTmp_startsWith (fs : FS) (p : Path) (pre : Bytes) (hp : p ≠ [])
    (h : startsWith fs p pre) :
    openTmp fs p = Except.ok (fs.set p (some (Node.file pre true)), pre.length) := by
  obtain ⟨hpar, hcase⟩ := h
  have hp2 : p.isEmpty = false := by simpa using hp
  rcases hcase with hf | ⟨hn, hpre⟩
  · have : fs.set p (some (Node.file pre true)) = fs := by
      funext q
      by_cases hq : q = p
      · rw [hq, FS.set_same, hf]
      · exact FS.set_other _ _ _ _ hq
    simp [openTmp, Stat, hpar, hf, this]
  · subst hpre
    have hw : ownerWritable 0o666 = true := by decide
    simp [openTmp, Stat, hpar, hn, OpenFileTrunc, hp2, hw]

/-! ## Lemmas: the log only grows -/

theorem Remove_log (w : World) (p : Path) : w.log <+: (Remove w p).log := by
  unfold Remove
  cases h : w.fs p with
  | none => exact List.prefix_refl _
  | some n =>
    cases n with
    | dir => exact List.prefix_refl _
    | file d wr => exact List.prefix_append _ _

theorem Rename_log (w : World) (p q : Path) : w.log <+: (Rename w p q).log := by
  unfold Rename
  cases h : w.fs p with
  | none => exact List.prefix_refl _
  | some n =>
    cases n with
    | dir => exact List.prefix_refl _
    | file d wr =>
      cases h2 : canReplace w.fs q with
      | false => exact List.prefix_refl _
      | true => exact List.prefix_append _ _

theorem extractFor_log (env : Env) (mod : Mod) (w : World) : w.log <+: (extractFor env mod w).log := by
  unfold extractFor
  split
  · exact List.prefix_append _ _
  · split
    · exact List.prefix_append _ _
    · exact List.prefix_refl _

theorem deferred_log (env : Env) (mod : Mod) (err : Option Err) (w : World) :
    w.log <+: (deferred env mod err w).log := by
  cases err with
  | some e => exact Remove_log w _
  | none => exact (Rename_log w _ _).trans (extractFor_log env mod _)

theorem attemptDownload_log (env : Env) (mod : Mod) (fuel : Nat) :
    ∀ (w w1 : World) (r : Option Err), attemptDownload env fuel mod w = some (r, w1) →
      w.log <+: w1.log := by
  induction fuel with
  | zero => intro w w1 r h; simp [attemptDownload] at h
  | succ n ih =>
    intro w w1 r h
    unfold attemptDownload at h
    cases ho : openTmp w.fs (tmpFileName env mod) with
    | error e =>
      simp only [ho, Option.some.injEq, Prod.mk.injEq] at h
      rw [← h.2]
    | ok v =>
      obtain ⟨fs1, startPos⟩ := v
      simp only [ho] at h
      cases hu : env.validUrl mod.Url with
      | false =>
        simp only [hu, Bool.not_false, if_true, Option.some.injEq, Prod.mk.injEq] at h
        rw [← h.2]
        refine List.IsPrefix.trans ?_ (deferred_log env mod _ _)
        exact List.prefix_refl _
      | true =>
        simp only [hu, Bool.not_true, Bool.false_eq_true, if_false] at h
        have hget : w.log <+: w.log ++ [Event.get mod.Url (rangeHeader startPos)] :=
          List.prefix_append _ _
        cases hs : env.server w.requests mod.Url startPos with
        | failed =>
          simp only [hs, Option.some.injEq, Prod.mk.injEq] at h
          rw [← h.2]
          refine List.IsPrefix.trans ?_ (deferred_log env mod _ _)
          exact hget
        | response status body complete =>
          simp only [hs] at h
          by_cases hst : status ≠ 206 ∧ status ≠ 200
          · rw [if_pos hst] at h
            by_cases h416 : status = 416
            · rw [if_pos h416] at h
              cases hrec : attemptDownload env n mod
                  (Remove { fs := fs1, requests := w.requests + 1,
                            log := w.log ++ [Event.get mod.Url (rangeHeader startPos)] }
                    (tmpFileName env mod)) with
              | none => simp [hrec] at h
              | some v =>
                obtain ⟨r3, w3⟩ := v
                simp only [hrec, Option.some.injEq, Prod.mk.injEq] at h
                rw [← h.2]
                refine List.IsPrefix.trans ?_ (deferred_log env mod _ _)
                exact hget.trans ((Remove_log _ _).trans (ih _ _ _ hrec))
            · rw [if_neg h416] at h
              simp only [Option.some.injEq, Prod.mk.injEq] at h
              rw [← h.2]
              refine List.IsPrefix.trans ?_ (deferred_log env mod _ _)
              exact hget
          · rw [if_neg hst] at h
            cases complete with
            | true =>
              simp only [if_true, Option.some.injEq, Prod.mk.injEq] at h
              rw [← h.2]
              refine List.IsPrefix.trans ?_ (deferred_log env mod _ _)
              exact hget
            | false =>
              simp only [Bool.false_eq_true, if_false, Option.some.injEq, Prod.mk.injEq] at h
              rw [← h.2]
              refine List.IsPrefix.trans ?_ (deferred_log env mod _ _)
              exact hget

/-! ## Lemmas: one attempt, by reply -/

theorem attemptDownload_failed (env : Env) (mod : Mod) (w : World) (pre : Bytes) (fuel : Nat)
    (hstart : startsWith w.fs (tmpFileName env mod) pre) (hurl : env.validUrl mod.Url = true)
    (hreply : env.server w.requests mod.Url pre.length = Reply.failed) :
    attemptDownload env (fuel + 1) mod w
      = some (some Err.send, deferred env mod (some Err.send) (requestSent env mod w pre)) := by
  rw [attemptDownload, openTmp_startsWith _ _ _ (tmp_ne_nil env mod) hstart]
  simp only [hurl, Bool.not_true, Bool.false_eq_true, if_false, hreply]
  rfl

theorem attemptDownload_416 (env : Env) (mod : Mod) (w : World) (pre body : Bytes)
    (complete : Bool) (fuel : Nat)
    (hstart : startsWith w.fs (tmpFileName env mod) pre) (hurl : env.validUrl mod.Url = true)
    (hreply : env.server w.requests mod.Url pre.length = Reply.response 416 body complete) :
    attemptDownload env (fuel + 1) mod w
      = (attemptDownload env fuel mod (Remove (requestSent env mod w pre) (tmpFileName env mod))).map
          (fun x => (x.1, deferred env mod none x.2)) := by
  rw [attemptDownload, openTmp_startsWith _ _ _ (tmp_ne_nil env mod) hstart]
  simp only [hurl, Bool.not_true, Bool.false_eq_true, if_false, hreply]
  rw [if_pos (by decide), if_pos trivial]
  cases h : attemptDownload env fuel mod
      (Remove (requestSent env mod w pre) (tmpFileName env mod)) with
  | none => simp only [requestSent] at h; simp [h]
  | some v => simp only [requestSent] at h; simp [h]

theorem attemptDownload_status (env : Env) (mod : Mod) (w : World) (pre body : Bytes)
    (status : Nat) (complete : Bool) (fuel : Nat)
    (hstart : startsWith w.fs (tmpFileName env mod) pre) (hurl : env.validUrl mod.Url = true)
    (hreply : env.server w.requests mod.Url pre.length = Reply.response status body complete)
    (h1 : status ≠ 206) (h2 : status ≠ 200) (h3 : status ≠ 416) :
    attemptDownload env (fuel + 1) mod w
      = some (some (Err.status status), deferred env mod none (requestSent env mod w pre)) := by
  rw [attemptDownload, openTmp_startsWith _ _ _ (tmp_ne_nil env mod) hstart]
  simp only [hurl, Bool.not_true, Bool.false_eq_true, if_false, hreply]
  rw [if_pos ⟨h1, h2⟩, if_neg h3]
  rfl

theorem attemptDownload_body (env : Env) (mod : Mod) (w : World) (pre body : Bytes)
    (status : Nat) (complete : Bool) (fuel : Nat)
    (hstart : startsWith w.fs (tmpFileName env mod) pre) (hurl : env.validUrl mod.Url = true)
    (hreply : env.server w.requests mod.Url pre.length = Reply.response status body complete)
    (hst : status = 200 ∨ status = 206) :
    attemptDownload env (fuel + 1) mod w
      = some (if complete then none else some Err.copy,
          deferred env mod (if complete then none else some Err.copy)
            { requestSent env mod w pre with
              fs := w.fs.set (tmpFileName env mod) (some (Node.file (pre ++ body) true)) }) := by
  rw [attemptDownload, openTmp_startsWith _ _ _ (tmp_ne_nil env mod) hstart]
  simp only [hurl, Bool.not_true, Bool.false_eq_true, if_false, hreply]
  rw [if_neg (by omega)]
  simp only [appendFile_set]
  cases complete <;> rfl

theorem Rename_file (w : World) (src dst : Path) (d : Bytes) (wr : Bool)
    (hsrc : w.fs src = some (Node.file d wr)) (hdst : canReplace w.fs dst = true) :
    Rename w src dst
      = { w with fs := (w.fs.set dst (some (Node.file d wr))).set src none,
                 log := w.log ++ [Event.renamed src dst] } := by
  unfold Rename
  rw [hsrc]
  simp [hdst]

theorem canReplace_set_other (fs : FS) (p dst : Path) (n : Option Node) (hp : p ≠ dst)
    (hpar : p ≠ dst.dropLast ∨ n = some Node.dir)
    (h : canReplace fs dst = true) : canReplace (fs.set p n) dst = true := by
  simp only [canReplace, Bool.and_eq_true, Bool.not_eq_true', List.isEmpty_eq_false,
    beq_eq_false_iff_ne, ne_eq] at h ⊢
  obtain ⟨⟨h1, h2⟩, h3⟩ := h
  refine ⟨⟨h1, ?_⟩, ?_⟩
  · unfold parentIsDir at h2 ⊢
    cases hd : dst.dropLast with
    | nil => rfl
    | cons a l =>
      rw [hd] at h2
      simp only at h2 ⊢
      by_cases hq : (a :: l) = p
      · rcases hpar with hpar | hpar
        · exact absurd (hq.symm.trans hd.symm) hpar
        · rw [hq, FS.set_same, hpar]; rfl
      · rw [FS.set_other _ _ _ _ hq]; exact h2
  · rw [FS.set_other _ _ _ _ (Ne.symm hp)]; exact h3

theorem Remove_file (w : World) (p : Path) (d : Bytes) (wr : Bool)
    (h : w.fs p = some (Node.file d wr)) :
    Remove w p = { w with fs := w.fs.set p none, log := w.log ++ [Event.removed p] } := by
  unfold Remove
  rw [h]

/-- Whatever the reply, an attempt that returns has sent its request, with the
length of the temporary file as start offset. -/
theorem attemptDownload_request (env : Env) (mod : Mod) (w w1 : World) (pre : Bytes)
    (fuel : Nat) (r : Option Err)
    (hstart : startsWith w.fs (tmpFileName env mod) pre) (hurl : env.validUrl mod.Url = true)
    (h : attemptDownload env fuel mod w = some (r, w1)) :
    w.log ++ [Event.get mod.Url (rangeHeader pre.length)] <+: w1.log := by
  cases fuel with
  | zero => simp [attemptDownload] at h
  | succ n =>
    cases hreply : env.server w.requests mod.Url pre.length with
    | failed =>
      rw [attemptDownload_failed env mod w pre n hstart hurl hreply] at h
      simp only [Option.some.injEq, Prod.mk.injEq] at h
      rw [← h.2]
      refine List.IsPrefix.trans ?_ (deferred_log env mod _ _)
      exact List.prefix_refl _
    | response status body complete =>
      by_cases h416 : status = 416
      · subst h416
        rw [attemptDownload_416 env mod w pre body complete n hstart hurl hreply] at h
        cases hrec : attemptDownload env n mod
            (Remove (requestSent env mod w pre) (tmpFileName env mod)) with
        | none => simp [hrec] at h
        | some v =>
          simp only [hrec, Option.map_some', Option.some.injEq, Prod.mk.injEq] at h
          rw [← h.2]
          refine List.IsPrefix.trans ?_ (deferred_log env mod _ _)
          refine List.IsPrefix.trans ?_ (attemptDownload_log env mod n _ _ _ hrec)
          exact Remove_log (requestSent env mod w pre) _
      · by_cases hst : status = 200 ∨ status = 206
        · rw [attemptDownload_body env mod w pre body status complete n hstart hurl hreply hst] at h
          simp only [Option.some.injEq, Prod.mk.injEq] at h
          rw [← h.2]
          refine List.IsPrefix.trans ?_ (deferred_log env mod _ _)
          exact List.prefix_refl _
        · rw [attemptDownload_status env mod w pre body status complete n hstart hurl hreply
            (fun h1 => hst (Or.inr h1)) (fun h1 => hst (Or.inl h1)) h416] at h
          simp only [Option.some.injEq, Prod.mk.injEq] at h
          rw [← h.2]
          refine List.IsPrefix.trans ?_ (deferred_log env mod _ _)
          exact List.prefix_refl _

/-- An attempt returns unless its request is answered with 416. -/
theorem attemptDownload_returns (env : Env) (mod : Mod) (w : World) (pre : Bytes) (fuel : Nat)
    (hstart : startsWith w.fs (tmpFileName env mod) pre) (hurl : env.validUrl mod.Url = true)
    (hnot : ∀ body complete,
      env.server w.requests mod.Url pre.length ≠ Reply.response 416 body complete) :
    (attemptDownload env (fuel + 1) mod w).isSome = true := by
  cases hreply : env.server w.requests mod.Url pre.length with
  | failed => rw [attemptDownload_failed env mod w pre fuel hstart hurl hreply]; rfl
  | response status body complete =>
    by_cases h416 : status = 416
    · subst h416; exact absurd hreply (hnot body complete)
    · by_cases hst : status = 200 ∨ status = 206
      · rw [attemptDownload_body env mod w pre body status complete fuel hstart hurl hreply hst]
        rfl
      · rw [attemptDownload_status env mod w pre body status complete fuel hstart hurl hreply
          (fun h1 => hst (Or.inr h1)) (fun h1 => hst (Or.inl h1)) h416]
        rfl

/-- An attempt returns, whatever the world it starts in, when the server never
answers 416. -/
theorem attemptDownload_no416 (env : Env)
    (h : ∀ n url start body complete, env.server n url start ≠ Reply.response 416 body complete)
    (fuel : Nat) (mod : Mod) (w : World) :
    (attemptDownload env (fuel + 1) mod w).isSome = true := by
  rw [attemptDownload]
  cases ho : openTmp w.fs (tmpFileName env mod) with
  | error e => rfl
  | ok v =>
    obtain ⟨fs1, startPos⟩ := v
    simp only
    cases hu : env.validUrl mod.Url with
    | false => rfl
    | true =>
      simp only [Bool.not_true, Bool.false_eq_true, if_false]
      cases hreply : env.server w.requests mod.Url startPos with
      | failed => rfl
      | response status body complete =>
        simp only
        by_cases hst : status ≠ 206 ∧ status ≠ 200
        · rw [if_pos hst]
          by_cases h416 : status = 416
          · subst h416; exact absurd hreply (h _ _ _ _ _)
          · rw [if_neg h416]; rfl
        · rw [if_neg hst]
          cases complete <;> rfl

/-! ## Lemmas: the retry loop -/

theorem attemptCount_failThenSucceed (k : Nat) : attemptCount (failThenSucceed k) = k + 1 := by
  induction k with
  | zero => rfl
  | succ k ih =>
    simp only [failThenSucceed, attemptCount] at ih ⊢
    simp [List.count_cons, ih]

theorem sleepsOf_failThenSucceed (k : Nat) : sleepsOf (failThenSucceed k) = List.replicate k 2 := by
  induction k with
  | zero => rfl
  | succ k ih => simp [failThenSucceed, sleepsOf, ih, List.replicate_succ]

theorem attemptCount_failThenGiveUp (n : Nat) : attemptCount (failThenGiveUp n) = n := by
  induction n with
  | zero => rfl
  | succ n ih =>
    simp only [failThenGiveUp, attemptCount] at ih ⊢
    simp [List.count_cons, ih]

/-- The loop ends with the first attempt that succeeds, when there is one within
the budget. -/
theorem downloadModWith_succeeds {σ : Type} (attempt : σ → Option (Option Err × σ))
    (budget : Nat) :
    ∀ (k : Nat) (s s1 : σ), k < budget → nthAttempt attempt k s = some (none, s1) →
      downloadModWith attempt budget s = some (failThenSucceed k, s1) := by
  induction budget with
  | zero => intro k s s1 hk; omega
  | succ b ih =>
    intro k s s1 hk h
    cases k with
    | zero =>
      simp only [nthAttempt] at h
      simp [downloadModWith, h, failThenSucceed]
    | succ k =>
      simp only [nthAttempt] at h
      cases ha : attempt s with
      | none => simp [ha] at h
      | some r =>
        obtain ⟨e, s2⟩ := r
        cases e with
        | none => simp [ha] at h
        | some e =>
          simp only [ha] at h
          simp [downloadModWith, ha, ih k s2 s1 (by omega) h, failThenSucceed]

/-- Every run of the loop that returns ends with the first successful attempt or
gives up after as many failed attempts as the budget allows. -/
theorem downloadModWith_shape {σ : Type} (attempt : σ → Option (Option Err × σ))
    (budget : Nat) :
    ∀ (s s1 : σ) (steps : List RetryStep),
      downloadModWith attempt budget s = some (steps, s1) →
      (∃ k, k < budget ∧ steps = failThenSucceed k ∧ nthAttempt attempt k s = some (none, s1))
        ∨ steps = failThenGiveUp budget := by
  induction budget with
  | zero =>
    intro s s1 steps h
    simp only [downloadModWith, Option.some.injEq, Prod.mk.injEq] at h
    exact Or.inr h.1.symm
  | succ b ih =>
    intro s s1 steps h
    cases ha : attempt s with
    | none => simp [downloadModWith, ha] at h
    | some r =>
      obtain ⟨e, s2⟩ := r
      cases e with
      | none =>
        simp only [downloadModWith, ha, Option.some.injEq, Prod.mk.injEq] at h
        exact Or.inl ⟨0, by omega, h.1.symm, by simp [nthAttempt, ha, h.2]⟩
      | some e =>
        simp only [downloadModWith, ha] at h
        cases hr : downloadModWith attempt b s2 with
        | none => simp [hr] at h
        | some r2 =>
          obtain ⟨steps2, s3⟩ := r2
          simp only [hr, Option.some.injEq, Prod.mk.injEq] at h
          rcases ih s2 s3 steps2 hr with ⟨k, hk, hs, hn⟩ | hs
          · refine Or.inl ⟨k + 1, by omega, ?_, ?_⟩
            · rw [← h.1, hs]; rfl
            · simp only [nthAttempt, ha]; rw [hn, h.2]
          · refine Or.inr ?_
            rw [← h.1, hs]; rfl

theorem downloadModWith_returns {σ : Type} (attempt : σ → Option (Option Err × σ))
    (hret : ∀ s, (attempt s).isSome = true) (budget : Nat) :
    ∀ s, (downloadModWith attempt budget s).isSome = true := by
  induction budget with
  | zero => intro s; rfl
  | succ b ih =>
    intro s
    cases ha : attempt s with
    | none => have := hret s; rw [ha] at this; exact absurd this (by simp)
    | some r =>
      obtain ⟨e, s2⟩ := r
      cases e with
      | none => simp [downloadModWith, ha]
      | some e =>
        cases hr : downloadModWith attempt b s2 with
        | none => have := ih s2; rw [hr] at this; exact absurd this (by simp)
        | some r2 => simp [downloadModWith, ha, hr]

/-- A run of the loop that gives up has made as many attempts as the budget
allows, and every one of them failed. -/
theorem downloadModWith_gaveUp {σ : Type} (attempt : σ → Option (Option Err × σ))
    (budget : Nat) :
    ∀ (s s1 : σ) (steps : List RetryStep),
      downloadModWith attempt budget s = some (steps, s1) →
      RetryStep.gaveUp ∈ steps →
      steps = failThenGiveUp budget
        ∧ ∀ k, k < budget → ∃ e s2, nthAttempt attempt k s = some (some e, s2) := by
  induction budget with
  | zero =>
    intro s s1 steps h _
    simp only [downloadModWith, Option.some.injEq, Prod.mk.injEq] at h
    exact ⟨h.1.symm, fun k hk => absurd hk (by omega)⟩
  | succ b ih =>
    intro s s1 steps h hg
    cases ha : attempt s with
    | none => simp [downloadModWith, ha] at h
    | some r =>
      obtain ⟨e, s2⟩ := r
      cases e with
      | none =>
        simp only [downloadModWith, ha, Option.some.injEq, Prod.mk.injEq] at h
        rw [← h.1] at hg
        simp at hg
      | some e =>
        simp only [downloadModWith, ha] at h
        cases hr : downloadModWith attempt b s2 with
        | none => simp [hr] at h
        | some r2 =>
          obtain ⟨steps2, s3⟩ := r2
          simp only [hr, Option.some.injEq, Prod.mk.injEq] at h
          rw [← h.1] at hg
          simp only [List.mem_cons, reduceCtorEq, false_or] at hg
          obtain ⟨hs, hall⟩ := ih s2 s3 steps2 hr hg
          refine ⟨by rw [← h.1, hs]; rfl, ?_⟩
          intro k hk
          cases k with
          | zero => exact ⟨e, s2, by simp [nthAttempt, ha]⟩
          | succ k =>
            obtain ⟨e2, s4, h4⟩ := hall k (by omega)
            exact ⟨e2, s4, by simp only [nthAttempt, ha]; exact h4⟩

theorem gaveUp_not_mem_failThenSucceed (k : Nat) : RetryStep.gaveUp ∉ failThenSucceed k := by
  induction k with
  | zero => simp [failThenSucceed]
  | succ k ih => simp [failThenSucceed, ih]

theorem gaveUp_mem_failThenGiveUp (n : Nat) : RetryStep.gaveUp ∈ failThenGiveUp n := by
  induction n with
  | zero => simp [failThenGiveUp]
  | succ n ih => simp [failThenGiveUp, ih]

/-! ## Lemmas: the manifest loop -/

theorem transfersOf_append (a b : List Action) : transfersOf (a ++ b) = transfersOf a ++ transfersOf b := by
  induction a with
  | nil => rfl
  | cons x xs ih => cases x <;> simp [transfersOf, ih]

theorem statusNames_append (a b : List Action) : statusNames (a ++ b) = statusNames a ++ statusNames b := by
  induction a with
  | nil => rfl
  | cons x xs ih => cases x <;> simp [statusNames, ih]

theorem statusTotals_append (a b : List Action) : statusTotals (a ++ b) = statusTotals a ++ statusTotals b := by
  induction a with
  | nil => rfl
  | cons x xs ih => cases x <;> simp [statusTotals, ih]

theorem nonSkip_cons_skip (m : Mod) (rest : List Mod) (h : m.Typ = 1) :
    nonSkip (m :: rest) = nonSkip rest := by
  simp [nonSkip, h]

theorem nonSkip_cons_keep (m : Mod) (rest : List Mod) (h : m.Typ ≠ 1) :
    nonSkip (m :: rest) = m :: nonSkip rest := by
  simp [nonSkip, h]

theorem DownloadLoop_result {σ : Type} (t : Mod → σ → Option σ) (modCount : Nat)
    (Mods : List Mod) :
    ∀ (i : Nat) (s s1 : σ) (acts : List Action),
      DownloadLoop t modCount i Mods s = some (acts, s1) →
      transfersOf acts = nonSkip Mods
        ∧ statusNames acts = (nonSkip Mods).map Mod.FileName
        ∧ acts.length = 4 * (nonSkip Mods).length := by
  induction Mods with
  | nil =>
    intro i s s1 acts h
    simp only [DownloadLoop, Option.some.injEq, Prod.mk.injEq] at h
    rw [← h.1]
    exact ⟨rfl, rfl, rfl⟩
  | cons m rest ih =>
    intro i s s1 acts h
    by_cases hm : m.Typ = 1
    · simp only [DownloadLoop, hm, if_true] at h
      rw [nonSkip_cons_skip m rest hm]
      exact ih _ _ _ _ h
    · simp only [DownloadLoop, hm, if_false] at h
      rw [nonSkip_cons_keep m rest hm]
      cases ht1 : t m s with
      | none => simp [ht1] at h
      | some s2 =>
        simp only [ht1] at h
        cases hr : DownloadLoop t modCount (i + 1) rest s2 with
        | none => simp [hr] at h
        | some r =>
          obtain ⟨acts2, s3⟩ := r
          simp only [hr, Option.some.injEq, Prod.mk.injEq] at h
          obtain ⟨h2, h3, h5⟩ := ih _ _ _ _ hr
          rw [← h.1]
          refine ⟨?_, ?_, ?_⟩
          · simp [transfersOf, h2]
          · simp [statusNames, h3]
          · simp [h5]; omega

theorem DownloadLoop_returns {σ : Type} (t : Mod → σ → Option σ) (modCount : Nat)
    (hret : ∀ m s, (t m s).isSome = true) (Mods : List Mod) :
    ∀ (i : Nat) (s : σ), (DownloadLoop t modCount i Mods s).isSome = true := by
  induction Mods with
  | nil => intro i s; rfl
  | cons m rest ih =>
    intro i s
    by_cases hm : m.Typ = 1
    · simp only [DownloadLoop, hm, if_true]
      exact ih _ _
    · cases ht1 : t m s with
      | none => have := hret m s; rw [ht1] at this; exact absurd this (by simp)
      | some s2 =>
        cases hr : DownloadLoop t modCount (i + 1) rest s2 with
        | none => have := ih (i + 1) s2; rw [hr] at this; exact absurd this (by simp)
        | some r => simp [DownloadLoop, hm, ht1, hr]

theorem DownloadLoop_totals {σ : Type} (t : Mod → σ → Option σ) (modCount : Nat) (Mods : List Mod) :
    ∀ (i : Nat) (s s1 : σ) (acts : List Action),
      DownloadLoop t modCount i Mods s = some (acts, s1) →
      ∀ total, total ∈ statusTotals acts → total = modCount := by
  induction Mods with
  | nil =>
    intro i s s1 acts h total ht
    simp [DownloadLoop] at h
    rw [h.1] at ht
    simp [statusTotals] at ht
  | cons m rest ih =>
    intro i s s1 acts h total ht
    by_cases hm : m.Typ = 1
    · simp only [DownloadLoop, hm, if_true] at h
      exact ih _ _ _ _ h total ht
    · simp only [DownloadLoop, hm, if_false] at h
      cases ht1 : t m s with
      | none => simp [ht1] at h
      | some s2 =>
        simp only [ht1] at h
        cases hr : DownloadLoop t modCount (i + 1) rest s2 with
        | none => simp [hr] at h
        | some r =>
          obtain ⟨acts2, s3⟩ := r
          simp only [hr, Option.some.injEq, Prod.mk.injEq] at h
          rw [← h.1] at ht
          simp only [statusTotals, List.mem_cons] at ht
          rcases ht with ht | ht
          · exact ht
          · exact ih _ _ _ _ hr total ht

/-- The state after the manifest loop is the state threaded through the
transfers of the items that are not Skip, in order. -/
theorem DownloadLoop_state {σ : Type} (t : Mod → σ → Option σ) (modCount : Nat)
    (Mods : List Mod) :
    ∀ (i : Nat) (s s1 : σ) (acts : List Action),
      DownloadLoop t modCount i Mods s = some (acts, s1) →
      (nonSkip Mods).foldlM (fun x m => t m x) s = some s1 := by
  induction Mods with
  | nil =>
    intro i s s1 acts h
    simp only [DownloadLoop, Option.some.injEq, Prod.mk.injEq] at h
    rw [← h.2]
    rfl
  | cons m rest ih =>
    intro i s s1 acts h
    by_cases hm : m.Typ = 1
    · simp only [DownloadLoop, hm, if_true] at h
      rw [nonSkip_cons_skip m rest hm]
      exact ih _ _ _ _ h
    · simp only [DownloadLoop, hm, if_false] at h
      rw [nonSkip_cons_keep m rest hm]
      cases ht1 : t m s with
      | none => simp [ht1] at h
      | some s2 =>
        simp only [ht1] at h
        cases hr : DownloadLoop t modCount (i + 1) rest s2 with
        | none => simp [hr] at h
        | some r =>
          obtain ⟨acts2, s3⟩ := r
          simp only [hr, Option.some.injEq, Prod.mk.injEq] at h
          have h2 := ih _ _ _ _ hr
          rw [← h.2]
          simp [List.foldlM_cons, ht1, h2]

/-! ## The claims -/

set_option maxRecDepth 100000

/-! ## The retry loop -/

/-- C1: every run of `downloadMod` that returns has made at most 100 calls of
`attemptDownload`, and either it ended with the first call that succeeded
(after `k < 100` failed calls, each followed by one sleep of 2 seconds) or
all 100 calls failed and it gave up; `downloadMod` returns whenever every
call of `attemptDownload` does, which is so when the server never answers
416; and when the first `k < 100` calls fail and call `k + 1` succeeds,
`downloadMod` makes exactly `k + 1` calls and sleeps exactly `k` times,
2 seconds each, before it returns with the world that call left. -/
theorem downloadMod_retry_policy (env : Env) (fuel : Nat) (mod : Mod) (w : World) :
    (∀ steps w1, downloadMod env fuel mod w = some (steps, w1) →
        attemptCount steps ≤ 100 ∧
        ((∃ k, k < 100 ∧ steps = failThenSucceed k
            ∧ nthAttempt (attemptDownload env fuel mod) k w = some (none, w1))
          ∨ (steps = failThenGiveUp 100
            ∧ ∀ k, k < 100 →
                ∃ e w2, nthAttempt (attemptDownload env fuel mod) k w = some (some e, w2)))) ∧
    ((∀ w0, (attemptDownload env fuel mod w0).isSome = true) →
        (downloadMod env fuel mod w).isSome = true) ∧
    (0 < fuel →
      (∀ n url start body complete,
        env.server n url start ≠ Reply.response 416 body complete) →
        (downloadMod env fuel mod w).isSome = true) ∧
    (∀ k w1, k < 100 → nthAttempt (attemptDownload env fuel mod) k w = some (none, w1) →
        downloadMod env fuel mod w = some (failThenSucceed k, w1)
          ∧ attemptCount (failThenSucceed k) = k + 1
          ∧ sleepsOf (failThenSucceed k) = List.replicate k 2) := by
  refine ⟨?_, ?_, ?_, ?_⟩
  · intro steps w1 h
    rcases downloadModWith_shape _ maxRetries w w1 steps h with ⟨k, hk, hs, hn⟩ | hs
    · have hk1 : k < 100 := hk
      refine ⟨?_, Or.inl ⟨k, hk1, hs, hn⟩⟩
      rw [hs, attemptCount_failThenSucceed]
      omega
    · have hg : RetryStep.gaveUp ∈ steps := by rw [hs]; exact gaveUp_mem_failThenGiveUp _
      obtain ⟨_, hall⟩ := downloadModWith_gaveUp _ maxRetries w w1 steps h hg
      refine ⟨?_, Or.inr ⟨hs, hall⟩⟩
      rw [hs, attemptCount_failThenGiveUp]
      exact Nat.le_refl _
  · intro hret
    exact downloadModWith_returns _ hret maxRetries w
  · intro hfuel h416
    cases fuel with
    | zero => exact absurd hfuel (by decide)
    | succ n =>
      exact downloadModWith_returns _ (fun w0 => attemptDownload_no416 env h416 n mod w0)
        maxRetries w
  · intro k w1 hk h
    exact ⟨downloadModWith_succeeds _ maxRetries k w w1 hk h,
      attemptCount_failThenSucceed k, sleepsOf_failThenSucceed k⟩

/-- The scenario of the specification for C1: the first three requests fail
with a network error and the fourth is served, so `downloadMod` makes 4
attempts and sleeps 3 times, 2 seconds each, and the final file holds the
whole resource. -/
theorem downloadMod_retry_policy_witness :
    (∃ w1, downloadMod (sampleEnv flakyServer) 1 sampleMod freshWorld
        = some ([RetryStep.attempt, RetryStep.sleep 2, RetryStep.attempt, RetryStep.sleep 2,
                 RetryStep.attempt, RetryStep.sleep 2, RetryStep.attempt], w1)
      ∧ w1.fs ["dl", "a.zip"] = some (Node.file [1, 2, 3, 4, 5] true))
      ∧ attemptCount (failThenSucceed 3) = 4
      ∧ sleepsOf (failThenSucceed 3) = [2, 2, 2] := by
  have h1 : (nthAttempt (attemptDownload (sampleEnv flakyServer) 1 sampleMod) 3 freshWorld).map
      (fun x => (x.1, x.2.fs ["dl", "a.zip"]))
      = some (none, some (Node.file [1, 2, 3, 4, 5] true)) := by decide
  obtain ⟨⟨r, w1⟩, h2, h3⟩ := Option.map_eq_some'.mp h1
  simp only [Prod.mk.injEq] at h3
  obtain ⟨h3, h4⟩ := h3
  subst h3
  obtain ⟨h5, h6, h7⟩ :=
    (downloadMod_retry_policy (sampleEnv flakyServer) 1 sampleMod freshWorld).2.2.2 3 w1
      (by decide) h2
  exact ⟨⟨w1, h5, h4⟩, h6, h7⟩

/-- C2, evaluated where the code departs from it: the server answers every
request with 404. All 100 attempts fail and `downloadMod` gives up, yet the
temporary file has been renamed onto the final name (once per attempt)
and the final name exists when `downloadMod` returns. -/
theorem downloadMod_renames_on_unexpected_status :
    (downloadMod (sampleEnv notFoundServer) 1 sampleMod freshWorld).map
        (fun x => (attemptCount x.1, decide (RetryStep.gaveUp ∈ x.1),
          x.2.fs ["dl", "a.zip"], x.2.fs ["dl", "a.zip.tmp"],
          renamesOnto ["dl", "a.zip"] x.2.log))
      = some (100, true, some (Node.file [] true), none, 100) := by
  decide

/-! ## One attempt -/

/-- C3, evaluated where the code departs from it. An attempt answered with 404
returns the error `unexpected server response`, yet it renames the
temporary file onto the final name and calls `Unzip` with the mod root.
An attempt answered with 416 and then served in full returns success and
calls `Unzip` twice. -/
theorem attemptDownload_unexpected_status_renames :
    (attemptDownload (sampleEnv notFoundServer) 1 sampleMod freshWorld).map
        (fun x => (x.1, x.2.log, x.2.fs ["dl", "a.zip"], x.2.fs ["dl", "a.zip.tmp"]))
      = some (some (Err.status 404),
          [Event.get "http://x/a.zip" "bytes=0-",
           Event.renamed ["dl", "a.zip.tmp"] ["dl", "a.zip"],
           Event.unzip ["dl", "a.zip"] ["game", "Mods"]],
          some (Node.file [] true), none)
    ∧ (attemptDownload (sampleEnv restartServer) 2 sampleMod resumeWorld).map
        (fun x => (x.1, unzipCalls x.2.log)) = some (none, 2) := by
  constructor <;> decide

/-- C4 (as amended): an attempt that starts with a writable temporary file of
`N = pre.length` bytes (or with none, `N = 0`, in an existing directory),
for a URL that `http.NewRequest` accepts, sends its request with
`Range: bytes=N-`, whatever the reply, and returns unless the reply is a
416. When the reply is 200 or 206, the body is copied to its end and the
final name can take the file (it lies in a directory and is missing or a
file that may be written), the attempt succeeds and the file renamed onto
the final name, as handed to the extractor, is `pre` followed by the body;
its size is `mod.Size` when the body is the resource from offset `N` on
and the resource has `mod.Size` bytes. -/
theorem attemptDownload_resumes (env : Env) (mod : Mod) (w : World) (pre : Bytes) (fuel : Nat)
    (hstart : startsWith w.fs (tmpFileName env mod) pre) (hurl : env.validUrl mod.Url = true) :
    (∀ r w1, attemptDownload env (fuel + 1) mod w = some (r, w1) →
        w.log ++ [Event.get mod.Url (rangeHeader pre.length)] <+: w1.log) ∧
    ((∀ body complete,
        env.server w.requests mod.Url pre.length ≠ Reply.response 416 body complete) →
        (attemptDownload env (fuel + 1) mod w).isSome = true) ∧
    (∀ status body, env.server w.requests mod.Url pre.length = Reply.response status body true →
        (status = 200 ∨ status = 206) → canReplace w.fs (finalFileName env mod) = true →
        ∃ w1, attemptDownload env (fuel + 1) mod w = some (none, extractFor env mod w1)
          ∧ w1.fs (finalFileName env mod) = some (Node.file (pre ++ body) true)
          ∧ w1.fs (tmpFileName env mod) = none
          ∧ w1.log = w.log ++ [Event.get mod.Url (rangeHeader pre.length),
              Event.renamed (tmpFileName env mod) (finalFileName env mod)]
          ∧ ∀ resource : Bytes, (resource.length : Int) = mod.Size →
              bodyFrom resource pre.length body → ((pre ++ body).length : Int) = mod.Size) := by
  refine ⟨fun r w1 h => attemptDownload_request env mod w w1 pre _ r hstart hurl h,
    attemptDownload_returns env mod w pre fuel hstart hurl, ?_⟩
  intro status body hreply hst hfinal
  have hne := tmp_ne_final env mod
  have hpar : tmpFileName env mod ≠ (finalFileName env mod).dropLast := by
    intro e
    have h1 : parentIsDir w.fs (finalFileName env mod) = true := by
      simp only [canReplace, Bool.and_eq_true] at hfinal
      exact hfinal.1.2
    unfold parentIsDir at h1
    rw [← e] at h1
    cases ht : tmpFileName env mod with
    | nil => exact tmp_ne_nil env mod ht
    | cons a l =>
      rw [ht] at h1
      simp only [beq_iff_eq] at h1
      rcases hstart.2 with h2 | ⟨h2, _⟩
      · rw [ht, h1] at h2; exact absurd h2 (by simp)
      · rw [ht, h1] at h2; exact absurd h2 (by simp)
  rw [attemptDownload_body env mod w pre body status true fuel hstart hurl hreply hst]
  simp only [if_true, deferred]
  rw [Rename_file _ _ _ (pre ++ body) true (by simp [FS.set_same])
    (by simp only [requestSent]; exact canReplace_set_other _ _ _ _ hne (Or.inl hpar) hfinal)]
  refine ⟨_, rfl, ?_, ?_, ?_, ?_⟩
  · simp only
    rw [FS.set_other _ _ _ _ (Ne.symm hne), FS.set_same]
  · simp only
    rw [FS.set_same]
  · simp [requestSent]
  · intro resource hlen hbody
    obtain ⟨h1, h2⟩ := hbody
    rw [← hlen, ← h2]
    simp only [List.length_append, List.length_drop]
    omega

/-- C4 (as amended) at a concrete input: two bytes are on disk, the server
honours `bytes=2-` with the last three bytes of its five-byte resource, and
the final file holds all five. -/
theorem attemptDownload_resumes_witness :
    startsWith resumeWorld.fs (tmpFileName (sampleEnv rangeServer) sampleMod) [1, 2]
    ∧ canReplace resumeWorld.fs (finalFileName (sampleEnv rangeServer) sampleMod) = true
    ∧ ∃ w1, attemptDownload (sampleEnv rangeServer) 1 sampleMod resumeWorld
          = some (none, extractFor (sampleEnv rangeServer) sampleMod w1)
        ∧ w1.fs (finalFileName (sampleEnv rangeServer) sampleMod)
          = some (Node.file [1, 2, 3, 4, 5] true)
        ∧ w1.log = [Event.get "http://x/a.zip" (rangeHeader 2),
            Event.renamed ["dl", "a.zip.tmp"] ["dl", "a.zip"]] := by
  have hstart : startsWith resumeWorld.fs (tmpFileName (sampleEnv rangeServer) sampleMod) [1, 2] :=
    ⟨by decide, Or.inl (by decide)⟩
  refine ⟨hstart, by decide, ?_⟩
  obtain ⟨w1, h1, h2, _, h4, _⟩ :=
    (attemptDownload_resumes (sampleEnv rangeServer) sampleMod resumeWorld [1, 2] 0 hstart rfl).2.2
      206 [3, 4, 5] (by decide) (Or.inr rfl) (by decide)
  exact ⟨w1, h1, h2, h4⟩

/-- C4 as stated fails in four runs. With a directory at the final name the
server honours `bytes=2-`, the copy succeeds and the attempt returns
success, yet nothing is renamed: the final name is still the directory and
the five bytes stay in the temporary file. With a temporary file that may
not be written the attempt fails before any request is sent. With a URL
that `http.NewRequest` rejects no request is sent and the temporary file
is removed. With a file name whose directory does not exist the temporary
file cannot be created and no request is sent. -/
theorem attemptDownload_resumes_counterexample :
    (attemptDownload (sampleEnv rangeServer) 1 sampleMod dirAtFinalWorld).map
        (fun x => (x.1, x.2.log, x.2.fs ["dl", "a.zip"], x.2.fs ["dl", "a.zip.tmp"]))
      = some (none,
          [Event.get "http://x/a.zip" "bytes=2-", Event.unzip ["dl", "a.zip"] ["game", "Mods"]],
          some Node.dir, some (Node.file [1, 2, 3, 4, 5] true))
    ∧ (attemptDownload (sampleEnv rangeServer) 1 sampleMod readOnlyTmpWorld).map
        (fun x => (x.1, x.2.log)) = some (some Err.openTmp, [])
    ∧ (attemptDownload badUrlEnv 1 sampleMod resumeWorld).map
        (fun x => (x.1, x.2.log, x.2.fs ["dl", "a.zip.tmp"]))
      = some (some Err.newRequest, [Event.removed ["dl", "a.zip.tmp"]], none)
    ∧ (attemptDownload (sampleEnv rangeServer) 1 ⟨"nodir/a.zip", "http://x/a.zip", 5, 0⟩
          freshWorld).map (fun x => (x.1, x.2.log)) = some (some Err.create, []) := by
  refine ⟨by decide, by decide, by decide, by decide⟩

/-- C5: when the request of an attempt is answered with 416, whatever the size
of the temporary file, the file is removed right after the request and the
attempt continues with exactly one further call of `attemptDownload` (its
own result is that of this call); in the world `w1` in which that call
starts the temporary file does not exist, and the request it sends carries
`Range: bytes=0-`. That call returns unless it is answered with 416
again. -/
theorem attemptDownload_restarts_on_416 (env : Env) (mod : Mod) (w : World) (pre body : Bytes)
    (complete : Bool) (fuel : Nat)
    (hstart : startsWith w.fs (tmpFileName env mod) pre) (hurl : env.validUrl mod.Url = true)
    (hreply : env.server w.requests mod.Url pre.length = Reply.response 416 body complete) :
    ∃ w1 : World,
      w1.fs (tmpFileName env mod) = none
      ∧ w1.log = w.log ++ [Event.get mod.Url (rangeHeader pre.length),
          Event.removed (tmpFileName env mod)]
      ∧ attemptDownload env (fuel + 1) mod w
          = (attemptDownload env fuel mod w1).map (fun x => (x.1, deferred env mod none x.2))
      ∧ (∀ n r w2, attemptDownload env n mod w1 = some (r, w2) →
          w1.log ++ [Event.get mod.Url (rangeHeader 0)] <+: w2.log)
      ∧ ((∀ b c, env.server w1.requests mod.Url 0 ≠ Reply.response 416 b c) →
          ∀ n, (attemptDownload env (n + 1) mod w1).isSome = true) := by
  have hrem : Remove (requestSent env mod w pre) (tmpFileName env mod)
      = { requestSent env mod w pre with
          fs := (requestSent env mod w pre).fs.set (tmpFileName env mod) none,
          log := (requestSent env mod w pre).log ++ [Event.removed (tmpFileName env mod)] } :=
    Remove_file _ _ pre true (by simp [requestSent, FS.set_same])
  have hstart1 : startsWith (Remove (requestSent env mod w pre) (tmpFileName env mod)).fs
      (tmpFileName env mod) [] := by
    rw [hrem]
    refine ⟨?_, Or.inr ⟨?_, rfl⟩⟩
    · simp only [requestSent]
      rw [parentIsDir_set_tmp, parentIsDir_set_tmp]
      exact hstart.1
    · simp only
      rw [FS.set_same]
  refine ⟨Remove (requestSent env mod w pre) (tmpFileName env mod), ?_, ?_,
    attemptDownload_416 env mod w pre body complete fuel hstart hurl hreply, ?_, ?_⟩
  · rw [hrem]; simp only; rw [FS.set_same]
  · rw [hrem]; simp [requestSent]
  · intro n r w2 h
    exact attemptDownload_request env mod _ w2 [] n r hstart1 hurl h
  · intro hnot n
    exact attemptDownload_returns env mod _ [] n hstart1 hurl hnot

/-- C5 at a concrete input: two bytes are on disk, the first request
(`bytes=2-`) is answered with 416, the file is removed and the next request
is `bytes=0-`. -/
theorem attemptDownload_restarts_on_416_witness :
    (∃ w1 : World,
      w1.fs (tmpFileName (sampleEnv restartServer) sampleMod) = none
      ∧ w1.log = [Event.get "http://x/a.zip" (rangeHeader 2), Event.removed ["dl", "a.zip.tmp"]]
      ∧ attemptDownload (sampleEnv restartServer) 2 sampleMod resumeWorld
          = (attemptDownload (sampleEnv restartServer) 1 sampleMod w1).map
              (fun x => (x.1, deferred (sampleEnv restartServer) sampleMod none x.2)))
    ∧ (attemptDownload (sampleEnv restartServer) 2 sampleMod resumeWorld).map
        (fun x => x.2.log.take 3)
      = some [Event.get "http://x/a.zip" "bytes=2-", Event.removed ["dl", "a.zip.tmp"],
          Event.get "http://x/a.zip" "bytes=0-"] := by
  constructor
  · obtain ⟨w1, h1, h2, h3, _⟩ :=
      attemptDownload_restarts_on_416 (sampleEnv restartServer) sampleMod resumeWorld [1, 2] []
        true 1 ⟨by decide, Or.inl (by decide)⟩ rfl (by decide)
    exact ⟨w1, h1, h2, h3⟩
  · decide

/-! ## The manifest loop -/

/-- C6: in every run of `Download` that returns, the items handed to
`downloadMod` are the manifest without its Skip (`Type == 1`) items, in
manifest order, each once; only those items get a status message and
progress-bar updates (four calls each, then the final status); each item
is transferred in the world the item before it left, whether that transfer
succeeded or gave up; and `Download` returns whenever every call of
`attemptDownload` does, which is so when the server never answers 416. -/
theorem Download_skips_type_one (env : Env) (fuel : Nat) (Mods : List Mod) (w : World) :
    (∀ acts w1, Download env fuel Mods w = some (acts, w1) →
        transfersOf acts = nonSkip Mods
          ∧ statusNames acts = (nonSkip Mods).map Mod.FileName
          ∧ acts.length = 4 * (nonSkip Mods).length + 1
          ∧ (nonSkip Mods).foldlM (fun x m => (downloadMod env fuel m x).map Prod.snd) w
              = some w1) ∧
    ((∀ m w0, (attemptDownload env fuel m w0).isSome = true) →
        (Download env fuel Mods w).isSome = true) ∧
    (0 < fuel →
      (∀ n url start body complete,
        env.server n url start ≠ Reply.response 416 body complete) →
        (Download env fuel Mods w).isSome = true) := by
  have hgen : (∀ m w0, (attemptDownload env fuel m w0).isSome = true) →
      (Download env fuel Mods w).isSome = true := by
    intro hret
    have ht : ∀ m w0, ((downloadMod env fuel m w0).map Prod.snd).isSome = true := by
      intro m w0
      have := downloadModWith_returns _ (hret m) maxRetries w0
      simpa [downloadMod] using this
    have hl := DownloadLoop_returns
      (fun mod w1 => (downloadMod env fuel mod w1).map Prod.snd) Mods.length ht Mods 0 w
    unfold Download DownloadWith
    cases hr : DownloadLoop (fun mod w1 => (downloadMod env fuel mod w1).map Prod.snd)
        Mods.length 0 Mods w with
    | none => rw [hr] at hl; exact absurd hl (by simp)
    | some r => rfl
  refine ⟨?_, hgen, ?_⟩
  · intro acts w1 h
    unfold Download DownloadWith at h
    cases hr : DownloadLoop (fun mod w1 => (downloadMod env fuel mod w1).map Prod.snd)
        Mods.length 0 Mods w with
    | none => simp [hr] at h
    | some r =>
      obtain ⟨acts2, w2⟩ := r
      simp only [hr, Option.some.injEq, Prod.mk.injEq] at h
      obtain ⟨h2, h3, h5⟩ := DownloadLoop_result _ _ _ _ _ _ _ hr
      have h6 := DownloadLoop_state _ _ _ _ _ _ _ hr
      rw [← h.1, ← h.2]
      refine ⟨?_, ?_, ?_, h6⟩
      · simp [transfersOf_append, h2, transfersOf]
      · simp [statusNames_append, h3, statusNames]
      · simp [h5]
  · intro hfuel h416
    cases fuel with
    | zero => exact absurd hfuel (by decide)
    | succ n => exact hgen (fun m w0 => attemptDownload_no416 env h416 n m w0)

/-- C6 on the manifest of the specification's scenario, with a server that
answers every request with 404: both transfers give up, and both items
that are not Skip are handed over, in order; the Skip item gets no call. -/
theorem Download_skips_type_one_witness :
    (Download (sampleEnv notFoundServer) 1 sampleManifest freshWorld).map Prod.fst
        = some sampleActions
      ∧ transfersOf sampleActions
        = [⟨"a.zip", "u/a.zip", 100, 0⟩, ⟨"c.zip", "u/c.zip", 50, 2⟩]
      ∧ (Download (sampleEnv notFoundServer) 1 sampleManifest freshWorld).isSome = true := by
  have h1 : (Download (sampleEnv notFoundServer) 1 sampleManifest freshWorld).map Prod.fst
      = some sampleActions := by decide
  obtain ⟨⟨acts, w1⟩, h2, h3⟩ := Option.map_eq_some'.mp h1
  simp only at h3
  subst h3
  have h4 := ((Download_skips_type_one (sampleEnv notFoundServer) 1 sampleManifest
    freshWorld).1 sampleActions w1 h2).1
  refine ⟨h1, ?_, ?_⟩
  · rw [h4]; decide
  · exact (Download_skips_type_one (sampleEnv notFoundServer) 1 sampleManifest freshWorld).2.2
      (by decide) (fun _ _ _ _ _ => by simp [sampleEnv, notFoundServer])

/-- C7 (as amended): the denominator of every per-item status message is the
length of the whole manifest, Skip items included. -/
theorem Download_status_total {σ : Type} (t : Mod → σ → Option σ) (Mods : List Mod) (s s1 : σ)
    (acts : List Action) (h : DownloadWith t Mods s = some (acts, s1)) :
    ∀ total, total ∈ statusTotals acts → total = Mods.length := by
  intro total ht
  unfold DownloadWith at h
  cases hr : DownloadLoop t Mods.length 0 Mods s with
  | none => simp [hr] at h
  | some r =>
    obtain ⟨acts2, s3⟩ := r
    simp only [hr, Option.some.injEq, Prod.mk.injEq] at h
    rw [← h.1, statusTotals_append] at ht
    simp only [statusTotals, List.append_nil] at ht
    exact DownloadLoop_totals t Mods.length Mods 0 s s3 acts2 hr total ht

/-- C7 (as amended) on the manifest of the specification's scenario: the
denominator is 3, the length of the manifest. -/
theorem Download_status_total_witness :
    DownloadWith recordName sampleManifest [] = some (sampleActions, ["a.zip", "c.zip"])
      ∧ 3 ∈ statusTotals sampleActions ∧ 3 = sampleManifest.length :=
  ⟨by decide, by decide,
    Download_status_total recordName sampleManifest [] ["a.zip", "c.zip"] sampleActions
      (by decide) 3 (by decide)⟩

/-- C7 as stated fails on the manifest of the specification's scenario: both
status messages show the denominator 3, while only 2 items are not Skip. -/
theorem Download_status_total_counterexample :
    DownloadWith recordName sampleManifest [] = some (sampleActions, ["a.zip", "c.zip"])
      ∧ statusTotals sampleActions = [3, 3]
      ∧ (nonSkip sampleManifest).length = 2
      ∧ ¬ (∀ total, total ∈ statusTotals sampleActions →
            total = (nonSkip sampleManifest).length) := by
  refine ⟨by decide, by decide, by decide, ?_⟩
  intro h
  exact absurd (h 3 (by decide)) (by decide)

/-! ## Archive extraction -/

/-- C8 (as amended): for a destination that does not end in a colon, when the
decoded name of every entry stays inside (no `..` component climbs above
the start and, for an empty destination, the name is not rooted and names
no other volume), the output path of every entry is the path the
destination resolves to or lies below it, and every path whose node the
extraction changes lies at or below the destination or is a missing
ancestor of the destination that is made a directory. -/
theorem Unzip_stays_under_dest (env : Env) (dest : String) (entries : List ZipEntry) (fs : FS)
    (hdest : dest.data.getLast? ≠ some ':')
    (h : ∀ f, f ∈ entries → entryInside env dest f = true) :
    (∀ f name, f ∈ entries → env.decodeFileName f.Name = some name →
        resolve env dest <+: outputPath env dest name) ∧
    (∀ q, (unzipEntries env dest entries fs).2 q ≠ fs q →
        resolve env dest <+: q
          ∨ (q <+: resolve env dest
              ∧ (unzipEntries env dest entries fs).2 q = some Node.dir ∧ fs q = none)) := by
  have h1 : ∀ f name, f ∈ entries → env.decodeFileName f.Name = some name →
      resolve env dest <+: outputPath env dest name := by
    intro f name hf hn
    have h2 := h f hf
    simp only [entryInside, hn] at h2
    exact outputPath_inside env dest name hdest h2
  exact ⟨h1, unzipEntries_change env dest (resolve env dest) entries h1 fs⟩

/-- C8 (as amended) on an archive with the entry `docs/readme.txt`. -/
theorem Unzip_stays_under_dest_witness :
    sampleDest.data.getLast? ≠ some ':'
      ∧ (∀ f, f ∈ writableArchive → entryInside extractEnv sampleDest f = true)
      ∧ resolve extractEnv sampleDest <+: outputPath extractEnv sampleDest "docs/readme.txt" :=
  ⟨by decide, by decide,
    (Unzip_stays_under_dest extractEnv sampleDest writableArchive destOnly (by decide)
      (by decide)).1
      ⟨"docs/readme.txt", false, 0o644, true, [1, 2], true⟩ "docs/readme.txt"
      (by decide) rfl⟩

/-- C8 as stated fails in three runs. The entry name `../evil.txt` has the
output path `game/evil.txt`, outside the destination `/game/Mods`, and the
extraction succeeds and writes the file there. With the empty destination
(the value the roots have when no game directory is found) the entry name
`/abs/y.txt` is written at `abs/y.txt` from the root of the volume, outside
the working directory `dl` the destination stands for. With the
destination `C:` the entry name `/x` has the output path `x` at the root of
the volume, again outside the working directory the destination stands
for. -/
theorem Unzip_escapes_dest :
    (outputPath extractEnv sampleDest "../evil.txt" = ["game", "evil.txt"]
      ∧ resolve extractEnv sampleDest = ["game", "Mods"]
      ∧ (unzipEntries extractEnv sampleDest climbingArchive destOnly).1 = none
      ∧ destOnly ["game", "evil.txt"] = none
      ∧ (unzipEntries extractEnv sampleDest climbingArchive destOnly).2 ["game", "evil.txt"]
          = some (Node.file [6, 6] true))
    ∧ (outputPath extractEnv "" "/abs/y.txt" = ["abs", "y.txt"]
      ∧ resolve extractEnv "" = ["dl"]
      ∧ (unzipEntries extractEnv "" absoluteArchive cwdOnly).1 = none
      ∧ cwdOnly ["abs", "y.txt"] = none
      ∧ (unzipEntries extractEnv "" absoluteArchive cwdOnly).2 ["abs", "y.txt"]
          = some (Node.file [6, 6] true))
    ∧ (outputPath extractEnv "C:" "/x" = ["x"]
      ∧ resolve extractEnv "C:" = ["dl"]
      ∧ stays (splitPath "/x") = true) := by
  refine ⟨⟨by decide, by decide, by decide, by decide, by decide⟩,
    ⟨by decide, by decide, by decide, by decide, by decide⟩, by decide, by decide, by decide⟩

/-- C9 (as amended): when an extraction succeeds and every file entry of the
archive carries the owner write bit or has its output path taken before
the extraction, a second extraction of the same archive on the resulting
file system succeeds and leaves that file system unchanged. -/
theorem Unzip_twice (env : Env) (dest : String) (entries : List ZipEntry)
    (fs fs1 : FS) (hrun : unzipEntries env dest entries fs = (none, fs1))
    (hw : ∀ e, e ∈ entries → entryReopens env dest fs e) :
    unzipEntries env dest entries fs1 = (none, fs1) :=
  unzipEntries_again env dest entries fs fs1 fs1 hrun hw (fun _ => rfl) (fun _ => Or.inl rfl)

/-- C9 (as amended) on an archive with one file of mode `0644`, and on the
archive with one file of mode `0444` where a writable file of that name is
there before the first extraction: the file stays writable and the second
extraction succeeds. -/
theorem Unzip_twice_witness :
    (writableExtracted ["game", "Mods", "docs", "readme.txt"] = some (Node.file [1, 2] true)
      ∧ unzipEntries extractEnv sampleDest writableArchive writableExtracted
          = (none, writableExtracted))
    ∧ ((unzipEntries extractEnv sampleDest readOnlyArchive readmePresent).2
          ["game", "Mods", "readme.txt"] = some (Node.file [1, 2] true)
      ∧ unzipEntries extractEnv sampleDest readOnlyArchive
            (unzipEntries extractEnv sampleDest readOnlyArchive readmePresent).2
          = (none, (unzipEntries extractEnv sampleDest readOnlyArchive readmePresent).2)) :=
  ⟨⟨by decide,
    Unzip_twice extractEnv sampleDest writableArchive destOnly writableExtracted
      (Prod.ext (by decide) rfl)
      (fun e he _ => Or.inl (by
        have h : ∀ x, x ∈ writableArchive → ownerWritable x.Mode = true := by decide
        exact h e he))⟩,
   ⟨by decide,
    Unzip_twice extractEnv sampleDest readOnlyArchive readmePresent
      (unzipEntries extractEnv sampleDest readOnlyArchive readmePresent).2
      (Prod.ext (by decide) rfl)
      (fun e he _ => Or.inr (fun name hname => by
        have h : ∀ x, x ∈ readOnlyArchive →
            readmePresent (outputPath extractEnv sampleDest x.Name) ≠ none := by decide
        have hn : name = e.Name := by
          simp only [extractEnv, sampleEnv, Option.some.injEq] at hname
          exact hname.symm
        rw [hn]
        exact h e he))⟩⟩

/-- C9 as stated fails for an entry of mode `0444`: the first extraction
succeeds and leaves a file its owner may not write, and the second
extraction fails to open it. -/
theorem Unzip_twice_read_only :
    (unzipEntries extractEnv sampleDest readOnlyArchive destOnly).1 = none
      ∧ readOnlyExtracted ["game", "Mods", "readme.txt"] = some (Node.file [1, 2] false)
      ∧ (unzipEntries extractEnv sampleDest readOnlyArchive readOnlyExtracted).1
          = some Err.openFile := by
  refine ⟨by decide, by decide, by decide⟩

/-- C10, evaluated where the code departs from it: `docs` is a regular file in
the destination, so `os.MkdirAll` fails for the directory entry `docs/`;
the extraction nevertheless goes on to the next entry, writes
`readme.txt` and returns no error. -/
theorem Unzip_ignores_directory_error :
    (MkdirAll docsIsFile (outputPath extractEnv sampleDest "docs/")).1 = some Err.mkdir
      ∧ (unzipEntries extractEnv sampleDest dirThenFile docsIsFile).1 = none
      ∧ (unzipEntries extractEnv sampleDest dirThenFile docsIsFile).2 ["game", "Mods", "readme.txt"]
          = some (Node.file [1, 2] true) := by
  refine ⟨by decide, by decide, by decide⟩

end ModDownloader
